import Mathlib

/-!
A verification development for the clementine bridge core: a shallow
embedding of the transaction-builder (Taproot address derivation, connector
binary tree) and of the verifier protocol endpoints (`new_deposit`,
`operator_kickoffs_generated`, withdrawal signing), together with theorems
about the embedded definitions.

Sources embedded:
* `operator/src/transaction_builder.rs` (`create_taproot_address`,
  `create_connector_tree_tx`, `create_connector_binary_tree`,
  `create_connector_tree_node_address`);
* `core/src/verifier.rs` (`new_deposit`, `operator_kickoffs_generated`);
* the semantics of `bitcoin::taproot::TaprootBuilder` (`add_leaf` /
  `finalize` of the rust-bitcoin dependency), which
  `create_taproot_address` drives and unwraps.

Machine integers: all Rust integer values in scope (lengths, depths,
satoshi amounts) stay far below their type bounds on every path the
theorems touch, so they are modelled as `Nat`; the one place a width limit
matters (a `Vec` length is a `usize`) appears as an explicit `≤ 2 ^ 64`
hypothesis.  Fallible paths return `Except`/`Option`; a Rust `panic!`
(`unwrap` of an error, out-of-range indexing) is modelled by the dedicated
error value `BridgeError.panicUnwrap` resp. by `Option` `none`.
-/

/-- X-only public keys, kept as their hex representation (the embedding
never computes with key material). -/
abbrev XOnlyPk := String

/-- A 32-byte hash value (`[u8; 32]` in the source), modelled as `Nat`. -/
abbrev Hash256 := Nat

/-- Script leaves produced by `ScriptBuilder`.  `script_builder.rs` is not
under `src/`; the constructors are modelled from the spec §4.1 as a free
datatype of the script shapes the spec enumerates (the embedding never
inspects script bytes, it only distinguishes distinct scripts). -/
inductive Script where
  | nOfN (pks : List XOnlyPk)
  | twoOfTwo (a b : XOnlyPk)
  | timelock (pk : XOnlyPk) (blocks : Nat)
  | absTimelock (pk : XOnlyPk) (height : Nat)
  | preimage (hash : Hash256)
  | inscription (pk : XOnlyPk) (preimages : List Hash256)
deriving DecidableEq

/-- The `Secp256k1<All>` context argument threaded through
`create_taproot_address`.  The context carries no data the address
derivation reads; it is modelled as an arbitrary seed so that independence
of the result from the context is a statable property. -/
structure SecpCtx where
  seed : Nat
deriving DecidableEq

/-- `bitcoin::Network`; the source passes `Network::Regtest` everywhere. -/
inductive Network where
  | regtest
deriving DecidableEq

/-- A node of a finalized taproot script tree (`NodeInfo` of rust-bitcoin),
kept as the free binary tree over script leaves: hashing is modelled as the
identity on this collision-free representation. -/
inductive TapNode where
  | leaf (s : Script)
  | node (l r : TapNode)
deriving DecidableEq

/-- Height of a taproot tree node = the longest leaf merkle-branch inside
it (0 for a bare leaf).  rust-bitcoin caps leaf merkle branches at
`TAPROOT_CONTROL_MAX_NODE_COUNT = 128`. -/
def TapNode.height : TapNode → Nat
  | .leaf _ => 0
  | .node l r => max l.height r.height + 1

/-- `TAPROOT_CONTROL_MAX_NODE_COUNT` of rust-bitcoin. -/
def TAPROOT_CONTROL_MAX_NODE_COUNT : Nat := 128

/-- Errors of `bitcoin::taproot::TaprootBuilder`. -/
inductive TaprootBuilderError where
  | invalidMerkleTreeDepth
  | nodeNotInDfsOrder
  | overCompleteTree
deriving DecidableEq

/-- `BridgeError` constructors reached by the embedded endpoints, plus
`panicUnwrap`, which models a Rust `panic` (a failing `.unwrap()` or an
out-of-range index) as distinct from every returned error. -/
inductive BridgeError where
  | invalidPeriod
  | invalidDepositUtxo
  | invalidKickoffUtxo
  | signatureVerificationFailed
  | alreadySpentWithdrawal
  | panicUnwrap
deriving DecidableEq

/-- The fixed provably-unspendable internal key of
`transaction_builder.rs` (BIP-341 NUMS point). -/
def INTERNAL_KEY : XOnlyPk :=
  "50929b74c1a04954b78b4b6035e97a5e078a5a0f28ec96d547bfee9ace803ac0"

/-- A Taproot address: `Address::p2tr(secp, internal_key, merkle_root,
network)` is a pure function of the internal key and the merkle root, so
the address is modelled as that pair (plus the network tag). -/
structure Address where
  internalKey : XOnlyPk
  merkleRoot : Option TapNode
  network : Network
deriving DecidableEq

/-- `TaprootSpendInfo`, restricted to the fields the embedded code reads
(internal key and merkle root). -/
structure TaprootSpendInfo where
  internalKey : XOnlyPk
  merkleRoot : Option TapNode
deriving DecidableEq

/-- `NodeInfo::combine` of rust-bitcoin: joins two subtrees under a fresh
parent.  It fails iff some leaf merkle branch of either side is already at
the 128-element cap (i.e. the side's height is at least 128). -/
def combine (a b : TapNode) : Except TaprootBuilderError TapNode :=
  if TAPROOT_CONTROL_MAX_NODE_COUNT ≤ max a.height b.height then
    .error .invalidMerkleTreeDepth
  else
    .ok (.node a b)

/-- The carry loop inside `TaprootBuilder::insert` of rust-bitcoin: while
the branch stack reaches exactly `depth + 1`, pop the deepest entry; a
completed sibling (`some child`) is combined with the node being inserted
(erroring at the root), while an empty slot (`none`) stops the loop after
being popped.  Returns the remaining stack, the accumulated node and its
final depth. -/
def insertLoop (branch : List (Option TapNode)) (node : TapNode) (depth : Nat) :
    Except TaprootBuilderError (List (Option TapNode) × TapNode × Nat) :=
  if branch.length = depth + 1 then
    match branch.getLast? with
    | some (some child) =>
      match depth with
      | 0 => .error .overCompleteTree
      | d + 1 =>
        match combine child node with
        | .error e => .error e
        | .ok comb => insertLoop branch.dropLast comb d
    | _ => .ok (branch.dropLast, node, depth)
  else
    .ok (branch, node, depth)
termination_by structural depth

/-- `TaprootBuilder::insert` (the common implementation of `add_leaf`):
depth-bound and DFS-order guards, the carry loop, then padding the stack
with empty slots up to the final depth and storing the node there. -/
def TBinsert (branch : List (Option TapNode)) (node : TapNode) (depth : Nat) :
    Except TaprootBuilderError (List (Option TapNode)) :=
  if TAPROOT_CONTROL_MAX_NODE_COUNT < depth then
    .error .invalidMerkleTreeDepth
  else if depth + 1 < branch.length then
    .error .nodeNotInDfsOrder
  else
    match insertLoop branch node depth with
    | .error e => .error e
    | .ok (b, node', depth') =>
      let padded := if b.length < depth' + 1 then
          b ++ List.replicate (depth' + 1 - b.length) none
        else b
      .ok (padded.set depth' (some node'))

/-- `TaprootBuilder::finalize`: succeeds on an empty stack (key-spend
only, no merkle root) or on a single completed root; every other stack is
an error (which `create_taproot_address` unwraps into a panic). -/
def TBfinalize (branch : List (Option TapNode)) :
    Except TaprootBuilderError (Option TapNode) :=
  match branch with
  | [] => .ok none
  | [some root] => .ok (some root)
  | _ => .error .overCompleteTree

/-- Fuel-driven floor base-2 logarithm; `ilog2F n n` computes Rust's
`usize::ilog2(n)` for `n ≥ 1` (the fuel `n` always suffices). -/
def ilog2F : Nat → Nat → Nat
  | 0, _ => 0
  | fuel + 1, n => if 2 ≤ n then ilog2F fuel (n / 2) + 1 else 0

/-- Rust `usize::ilog2` (floor log2), total with `ilog2 0 = 0`. -/
def ilog2 (n : Nat) : Nat := ilog2F n n

/-- The leaf depth `create_taproot_address` assigns to leaf `i` of `n ≥ 2`
scripts: `m - ((i >= n - k) as u8)` with `m = (n-1).ilog2() + 1` and
`k = 2^m - n` (transaction_builder.rs lines 167-173). -/
def tapDepth (n i : Nat) : Nat :=
  let m := ilog2 (n - 1) + 1
  let k := 2 ^ m - n
  m - (if n - k ≤ i then 1 else 0)

/-- The ordered list of leaf depths `create_taproot_address` uses for `n`
leaves. -/
def leafDepthList (n : Nat) : List Nat :=
  (List.range n).map (tapDepth n)

/-- The depth assignment as the spec's words state it (for comparison with
`leafDepthList`): every leaf at depth `m`, except the FIRST `k` leaves of
the list at depth `m - 1`. -/
def specLeafDepths (n : Nat) : List Nat :=
  let m := ilog2 (n - 1) + 1
  let k := 2 ^ m - n
  (List.range n).map (fun i => if i < k then m - 1 else m)

/-- The builder loop of `create_taproot_address`: fold `add_leaf` over the
leaf indices (`(0..n).fold(TaprootBuilder::new(), ..)`); a single script is
added at depth 0.  Out-of-range script indexing cannot happen (`i < n`);
the `getD` default is never read. -/
def buildTaprootBuilder (scripts : List Script) :
    Except TaprootBuilderError (List (Option TapNode)) :=
  let n := scripts.length
  if 1 < n then
    (List.range n).foldl
      (fun acc i =>
        acc.bind (fun b =>
          TBinsert b (.leaf (scripts.getD i (.preimage 0))) (tapDepth n i)))
      (.ok [])
  else
    match scripts with
    | [s] => TBinsert [] (.leaf s) 0
    | _ => .ok []

/-- `TransactionBuilder::create_taproot_address`
(transaction_builder.rs lines 159-191): reject the empty script list with
`InvalidPeriod`, build the balanced tree through `TaprootBuilder`
(unwrapping every `add_leaf` and the `finalize`), and return the p2tr
address for the fixed internal key together with the spend info. -/
def createTaprootAddress (secp : SecpCtx) (scripts : List Script) :
    Except BridgeError (Address × TaprootSpendInfo) :=
  let _ := secp
  if scripts.length = 0 then .error .invalidPeriod
  else
    match buildTaprootBuilder scripts with
    | .error _ => .error .panicUnwrap
    | .ok branch =>
      match TBfinalize branch with
      | .error _ => .error .panicUnwrap
      | .ok root =>
        .ok (⟨INTERNAL_KEY, root, .regtest⟩, ⟨INTERNAL_KEY, root⟩)

/-- `CONNECTOR_TREE_OPERATOR_TAKES_AFTER` from `circuit_helpers::config`
(not under src/).  Modelled from the spec: the operator-timelock constant
("return_address after 200 blocks"); its concrete value is irrelevant to
every theorem below. -/
def CONNECTOR_TREE_OPERATOR_TAKES_AFTER : Nat := 200

/-- Transaction ids.  `compute_txid`/`txid()` hashes the transaction; the
embedding keeps the hash collision-free by letting a connector-tree
transaction's id be the transaction content itself (spending input plus
ordered outputs), while ids of transactions built outside the embedded
code are `external`. -/
inductive TxidM where
  | external (id : Nat)
  | ofConnTx (parentTxid : TxidM) (parentVout : Nat) (outputs : List (Nat × Address))
deriving DecidableEq

/-- `bitcoin::OutPoint`. -/
structure OutPointM where
  txid : TxidM
  vout : Nat
deriving DecidableEq

/-- Modelled from the spec: `calculate_amount` lives in
`operator/src/utils.rs`, which is not under src/.  Spec §4.3 and the
source comments at transaction_builder.rs lines 349/382 fix it as the
value a depth-`d` connector subtree must hold:
`2^d · dust + (2^d − 1) · fee`. -/
def calculate_amount (depth dust fee : Nat) : Nat :=
  2 ^ depth * dust + (2 ^ depth - 1) * fee

/-- A connector-tree node transaction: one input (spent with the
operator-timelock relative sequence) and the ordered output list of
(value, address) pairs. -/
structure ConnTx where
  input : OutPointM
  inputSequence : Nat
  outputs : List (Nat × Address)
deriving DecidableEq

/-- The id of a connector-tree transaction (collision-free hash model). -/
def ConnTx.txid (tx : ConnTx) : TxidM :=
  .ofConnTx tx.input.txid tx.input.vout tx.outputs

/-- `TransactionBuilder::create_connector_tree_node_address`
(transaction_builder.rs lines 219-239): Taproot address over the
operator-timelock leaf and the hash-preimage leaf for the node's committed
hash (the source unwraps the result; the `Except` is kept so the unwrap
can be reasoned about). -/
def create_connector_tree_node_address (secp : SecpCtx) (actor_pk : XOnlyPk)
    (hash : Hash256) : Except BridgeError (Address × TaprootSpendInfo) :=
  createTaprootAddress secp
    [.timelock actor_pk CONNECTOR_TREE_OPERATOR_TAKES_AFTER, .preimage hash]

/-- `TransactionBuilder::create_connector_tree_tx`
(transaction_builder.rs lines 343-370): split a UTXO into two outputs of
value `calculate_amount(depth, DUST_VALUE, MIN_RELAY_FEE)` each.  The
`DUST_VALUE`/`MIN_RELAY_FEE` constants live in `circuit_helpers`
(not under src/) and are threaded as the `dust`/`fee` parameters. -/
def create_connector_tree_tx (dust fee : Nat) (utxo : OutPointM) (depth : Nat)
    (first second : Address) : ConnTx :=
  { input := utxo
    inputSequence := CONNECTOR_TREE_OPERATOR_TAKES_AFTER
    outputs := [(calculate_amount depth dust fee, first),
                (calculate_amount depth dust fee, second)] }

/-- Inner loop body of `create_connector_binary_tree`: for each UTXO
`utxo` (position `j`) of the previous level, derive the two child
addresses from the committed hashes `connector_tree_hashes[i+1][2j]` and
`[2j+1]`, build the splitting transaction, and emit its two output
points.  A missing hash (out-of-range index) is the source's panic,
modelled as `none`. -/
def connLevelGo (secp : SecpCtx) (pk : XOnlyPk) (dust fee depth i : Nat)
    (hashes : List (List Hash256)) :
    List OutPointM → Nat → Option (List OutPointM)
  | [], _ => some []
  | utxo :: rest, j => do
    let lvl ← hashes[i + 1]?
    let h1 ← lvl[2 * j]?
    let h2 ← lvl[2 * j + 1]?
    let fstAddr ← (create_connector_tree_node_address secp pk h1).toOption
    let sndAddr ← (create_connector_tree_node_address secp pk h2).toOption
    let tx := create_connector_tree_tx dust fee utxo (depth - i - 1) fstAddr.1 sndAddr.1
    let tail ← connLevelGo secp pk dust fee depth i hashes rest (j + 1)
    some (⟨tx.txid, 0⟩ :: ⟨tx.txid, 1⟩ :: tail)

/-- The level loop of `create_connector_binary_tree` (`for i in 0..depth`),
carrying the previous level's output points and returning the list of the
levels it creates (levels `1..depth`). -/
def connTreeLoop (secp : SecpCtx) (pk : XOnlyPk) (dust fee depth : Nat)
    (hashes : List (List Hash256)) (i : Nat) (prev : List OutPointM) :
    Option (List (List OutPointM)) :=
  if h : depth ≤ i then some []
  else do
    let cur ← connLevelGo secp pk dust fee depth i hashes prev 0
    let rest ← connTreeLoop secp pk dust fee depth hashes (i + 1) cur
    some (cur :: rest)
termination_by depth - i

/-- `TransactionBuilder::create_connector_binary_tree`
(transaction_builder.rs lines 374-428): compute the (unused) total amount
and root address, then lay out `depth` further levels of output points
below the root UTXO; the result is the list of all `depth + 1` levels. -/
def create_connector_binary_tree (secp : SecpCtx) (_period : Nat)
    (xonly_public_key : XOnlyPk) (root_utxo : OutPointM) (depth : Nat)
    (dust fee : Nat) (connector_tree_hashes : List (List Hash256)) :
    Option (List (List OutPointM)) := do
  let _total_amount := calculate_amount depth dust fee
  let lvl0 ← connector_tree_hashes[0]?
  let h00 ← lvl0[0]?
  let _root_address ←
    (create_connector_tree_node_address secp xonly_public_key h00).toOption
  let rest ← connTreeLoop secp xonly_public_key dust fee depth
    connector_tree_hashes 0 [root_utxo]
  some ([root_utxo] :: rest)

/-- Total number of hash entries across all levels of a hash list. -/
def totalHashes (hashes : List (List Hash256)) : Nat :=
  (hashes.map List.length).sum

/-- MuSig2 public nonces (opaque values). -/
abbrev PubNonce := Nat

/-- MuSig2 secret nonces (opaque values). -/
abbrev SecNonce := Nat

/-- One `musig::nonce_pair` result: (public nonce, secret nonce). -/
abbrev NoncePair := PubNonce × SecNonce

/-- Aggregated MuSig2 nonces (opaque values). -/
abbrev AggNonce := Nat

/-- Partial MuSig2 signatures (opaque values). -/
abbrev PartialSig := Nat

/-- Schnorr signatures (opaque values). -/
abbrev SigM := Nat

/-- A recovery taproot address, kept opaque. -/
abbrev RecoveryAddr := String

/-- An EVM address, kept opaque. -/
abbrev EvmAddr := Nat

/-- The persistence operations the embedded verifier endpoints issue, in
program order; used to state which writes happen inside a begin/commit
transactional boundary. -/
inductive DBOp where
  | readPubNonces
  | beginTx
  | commitTx
  | saveDepositInfo
  | saveNonces
  | saveAggNonces
  | saveKickoffOutpoints
deriving DecidableEq

/-- Whether a persistence operation writes to the store. -/
def DBOp.isWrite : DBOp → Bool
  | .saveDepositInfo | .saveNonces | .saveAggNonces | .saveKickoffOutpoints => true
  | _ => false

/-- Association-list lookup (first binding wins). -/
def assocGet {K V : Type} [DecidableEq K] : List (K × V) → K → Option V
  | [], _ => none
  | (k', v) :: rest, k => if k' = k then some v else assocGet rest k

/-- Association-list upsert: the new binding shadows any older one. -/
def assocSet {K V : Type} (l : List (K × V)) (k : K) (v : V) : List (K × V) :=
  (k, v) :: l

/-- Modelled from the spec: the verifier's persistence store (`VerifierDB`
of `core/src/database`, not under src/) as the transactional key-value
store of spec §6, holding per-deposit metadata, nonce sets, aggregated
nonces and kickoff outpoints+amounts. -/
structure VerifierDB where
  depositInfo : List (OutPointM × (RecoveryAddr × EvmAddr))
  nonceSets : List (OutPointM × List NoncePair)
  aggNonceSets : List (OutPointM × List AggNonce)
  kickoffOutpointsAndAmounts : List (OutPointM × List (OutPointM × Nat))
deriving DecidableEq

/-- The empty persistence store. -/
def emptyVerifierDB : VerifierDB := ⟨[], [], [], []⟩

/-- Modelled from the spec: `VerifierDB::get_pub_nonces` returns the
public halves of the nonce pairs saved for a deposit, or `none` if no
nonce set was ever saved. -/
def get_pub_nonces (db : VerifierDB) (deposit : OutPointM) : Option (List PubNonce) :=
  (assocGet db.nonceSets deposit).map (fun ps => ps.map Prod.fst)

/-- Modelled from the spec: `VerifierDB::save_deposit_info`. -/
def save_deposit_info (db : VerifierDB) (deposit : OutPointM)
    (recovery : RecoveryAddr) (evm : EvmAddr) : VerifierDB :=
  { db with depositInfo := assocSet db.depositInfo deposit (recovery, evm) }

/-- Modelled from the spec: `VerifierDB::save_nonces`. -/
def save_nonces (db : VerifierDB) (deposit : OutPointM) (nonces : List NoncePair) :
    VerifierDB :=
  { db with nonceSets := assocSet db.nonceSets deposit nonces }

/-- Modelled from the spec: `VerifierDB::save_agg_nonces`. -/
def save_agg_nonces (db : VerifierDB) (deposit : OutPointM) (aggs : List AggNonce) :
    VerifierDB :=
  { db with aggNonceSets := assocSet db.aggNonceSets deposit aggs }

/-- Modelled from the spec: `VerifierDB::save_kickoff_outpoints_and_amounts`. -/
def save_kickoff_outpoints_and_amounts (db : VerifierDB) (deposit : OutPointM)
    (koa : List (OutPointM × Nat)) : VerifierDB :=
  { db with kickoffOutpointsAndAmounts := assocSet db.kickoffOutpointsAndAmounts deposit koa }

/-- `num_required_sigs` of `Verifier::new_deposit` (verifier.rs line 93). -/
def num_required_sigs : Nat := 10

/-- `Verifier::new_deposit` (verifier.rs lines 77-116).  The RPC-side
`check_deposit_utxo` validation is external (out of scope per spec §1) and
enters as the boolean `check_deposit_ok`; fresh nonce generation draws
from the random stream `rng`.  Returns the result, the store after the
call, and the trace of persistence operations issued. -/
def new_deposit (check_deposit_ok : Bool) (rng : Nat → NoncePair) (db : VerifierDB)
    (deposit_utxo : OutPointM) (recovery_taproot_address : RecoveryAddr)
    (evm_address : EvmAddr) :
    Except BridgeError (List PubNonce) × VerifierDB × List DBOp :=
  if check_deposit_ok = false then (.error .invalidDepositUtxo, db, [])
  else
    match get_pub_nonces db deposit_utxo with
    | some pub_nonces => (.ok pub_nonces, db, [.readPubNonces])
    | none =>
      let nonces := (List.range num_required_sigs).map rng
      let db1 := save_deposit_info db deposit_utxo recovery_taproot_address evm_address
      let db2 := save_nonces db1 deposit_utxo nonces
      (.ok (nonces.map Prod.fst), db2,
        [.readPubNonces, .beginTx, .saveDepositInfo, .saveNonces, .commitTx])

/-- A transaction an operator declares a kickoff UTXO inside
(`PsbtOutPoint.tx`), reduced to its id and its output values. -/
structure PsbtTx where
  txid : TxidM
  outputs : List Nat
deriving DecidableEq

/-- `PsbtOutPoint`: a declared kickoff = a funding transaction plus the
output index inside it. -/
structure PsbtOutPoint where
  tx : PsbtTx
  vout : Nat
deriving DecidableEq

/-- The kickoff commitment digest
`sha256_hash!(deposit.txid, deposit.vout, kickoff_txid, kickoff_vout)`
(verifier.rs lines 141-146), with sha256 modelled as a collision-free
constructor of its inputs. -/
structure KickoffMsg where
  depositTxid : TxidM
  depositVout : Nat
  kickoffTxid : TxidM
  kickoffVout : Nat
deriving DecidableEq

/-- The per-kickoff validation loop of `operator_kickoffs_generated`
(verifier.rs lines 135-153): look up the declared output (an out-of-range
`vout` is the source's index panic), reject values under the
100 000-satoshi minimum with `InvalidKickoffUtxo`, then verify the
operator's schnorr signature over the kickoff commitment digest
(`verify_schnorr` is the secp256k1 primitive, threaded as an oracle). -/
def kickoffChecks (verify_schnorr : SigM → KickoffMsg → Bool) (deposit_utxo : OutPointM) :
    List (PsbtOutPoint × SigM) → Except BridgeError Unit
  | [] => .ok ()
  | (ku, sig) :: rest =>
    match ku.tx.outputs[ku.vout]? with
    | none => .error .panicUnwrap
    | some value =>
      if value < 100000 then .error .invalidKickoffUtxo
      else if verify_schnorr sig ⟨deposit_utxo.txid, deposit_utxo.vout, ku.tx.txid, ku.vout⟩ then
        kickoffChecks verify_schnorr deposit_utxo rest
      else .error .signatureVerificationFailed

/-- `Verifier::operator_kickoffs_generated` (verifier.rs lines 124-176):
reject a signature/UTXO count mismatch with `InvalidKickoffUtxo`, run the
per-kickoff checks, then persist the aggregated nonces and the kickoff
(outpoint, amount) pairs — as two separate store writes with no
begin/commit around them — and return the (placeholder-empty) partial
signature list. -/
def operator_kickoffs_generated (verify_schnorr : SigM → KickoffMsg → Bool)
    (db : VerifierDB) (deposit_utxo : OutPointM) (kickoff_utxos : List PsbtOutPoint)
    (operators_kickoff_sigs : List SigM) (agg_nonces : List AggNonce) :
    Except BridgeError (List PartialSig) × VerifierDB × List DBOp :=
  if operators_kickoff_sigs.length ≠ kickoff_utxos.length then
    (.error .invalidKickoffUtxo, db, [])
  else
    match kickoffChecks verify_schnorr deposit_utxo
        (kickoff_utxos.zip operators_kickoff_sigs) with
    | .error e => (.error e, db, [])
    | .ok _ =>
      let kickoff_outpoints_and_amounts := kickoff_utxos.map
        (fun x => (OutPointM.mk x.tx.txid x.vout, x.tx.outputs.getD x.vout 0))
      let db1 := save_agg_nonces db deposit_utxo agg_nonces
      let db2 := save_kickoff_outpoints_and_amounts db1 deposit_utxo
        kickoff_outpoints_and_amounts
      (.ok [], db2, [.saveAggNonces, .saveKickoffOutpoints])

/-- Scan of a persistence trace tracking whether a transaction is open;
`true` iff every write happens while a transaction is open. -/
def writesInTxnGo : List DBOp → Bool → Bool
  | [], _ => true
  | op :: rest, inTxn =>
    match op with
    | .beginTx => writesInTxnGo rest true
    | .commitTx => writesInTxnGo rest false
    | _ => (!op.isWrite || inTxn) && writesInTxnGo rest inTxn

/-- A trace executes all its writes inside a single begin/commit
transactional boundary: every write happens inside an open transaction
and at most one `beginTx` occurs. -/
def allWritesInSingleTxn (tr : List DBOp) : Bool :=
  writesInTxnGo tr false && decide (tr.countP (fun op => op == DBOp.beginTx) ≤ 1)

/-- Modelled from the spec: the operator's withdrawal-signature store
(withdrawal signatures indexed by withdrawal index with their bound
bridge-fund txid, spec §6). -/
structure OperatorDB where
  withdrawalSigs : List (Nat × (TxidM × SigM))
deriving DecidableEq

/-- Modelled from the spec: `new_withdrawal_direct` (spec §4.5 state 4 and
§8); the source file implementing it is not under src/ (operator.rs holds
only the bodyless `new_withdrawal` stub).  If a signature already exists
for the index, return it only when bound to the same `bridge_fund_txid`,
else reject with `AlreadySpentWithdrawal`; otherwise sign the rebuilt
withdrawal transaction (`sign_withdrawal` is the deterministic signing
primitive over index, bridge-fund txid and destination), persist the
binding, and return the signature. -/
def new_withdrawal_direct (sign_withdrawal : Nat → TxidM → String → SigM)
    (db : OperatorDB) (withdrawal_idx : Nat) (bridge_fund_txid : TxidM)
    (dest_address : String) : Except BridgeError SigM × OperatorDB :=
  match assocGet db.withdrawalSigs withdrawal_idx with
  | some (txid0, sig0) =>
    if txid0 = bridge_fund_txid then (.ok sig0, db)
    else (.error .alreadySpentWithdrawal, db)
  | none =>
    let sig := sign_withdrawal withdrawal_idx bridge_fund_txid dest_address
    (.ok sig, ⟨(withdrawal_idx, (bridge_fund_txid, sig)) :: db.withdrawalSigs⟩)

deriving instance DecidableEq for Except

lemma ilog2F_spec : ∀ fuel n : Nat, 1 ≤ n → n ≤ fuel →
    2 ^ ilog2F fuel n ≤ n ∧ n < 2 ^ (ilog2F fuel n + 1) := by
  intro fuel
  induction fuel with
  | zero => intro n h1 h2; omega
  | succ fuel ih =>
    intro n h1 h2
    simp only [ilog2F]
    by_cases h : 2 ≤ n
    · simp only [if_pos h]
      have hdiv1 : 1 ≤ n / 2 := by omega
      have hdiv2 : n / 2 ≤ fuel := by omega
      obtain ⟨ha, hb⟩ := ih (n / 2) hdiv1 hdiv2
      rw [pow_succ, pow_succ]
      rw [pow_succ] at hb
      constructor <;> omega
    · simp only [if_neg h]
      norm_num
      omega

lemma ilog2_spec (n : Nat) (h : 1 ≤ n) :
    2 ^ ilog2 n ≤ n ∧ n < 2 ^ (ilog2 n + 1) :=
  ilog2F_spec n n h le_rfl

/-- Claim C6: for a fixed ordered list of leaf scripts (with the fixed
unspendable internal key), any two invocations of `create_taproot_address`
yield the same address and merkle root — the result is a deterministic,
pure function of the ordered leaf list and internal key, independent of
the secp context or any other state. -/
theorem create_taproot_address_deterministic (secp1 secp2 : SecpCtx)
    (scripts : List Script) :
    createTaprootAddress secp1 scripts = createTaprootAddress secp2 scripts := rfl

/-- Claim C8: `create_taproot_address` on an empty script list returns
`InvalidPeriod`; on a single script it builds the single-leaf tree with
that leaf at depth 0 (the merkle root is the bare leaf). -/
theorem create_taproot_address_edge_cases (secp : SecpCtx) (s : Script) :
    createTaprootAddress secp [] = .error .invalidPeriod ∧
    createTaprootAddress secp [s] =
      .ok (⟨INTERNAL_KEY, some (.leaf s), .regtest⟩,
           ⟨INTERNAL_KEY, some (.leaf s)⟩) :=
  ⟨rfl, rfl⟩

/-- Claim C5: once `new_withdrawal_direct` succeeds for a withdrawal index
with some `bridge_fund_txid`, a second call at the same index with a
different txid fails with `AlreadySpentWithdrawal`, and a second call with
the same txid returns the same signature — the index is bound to exactly
one bridge-fund txid. -/
theorem new_withdrawal_direct_binding (sign : Nat → TxidM → String → SigM)
    (db : OperatorDB) (idx : Nat) (t1 t2 : TxidM) (a1 a2 a3 : String)
    (s1 : SigM) (db1 : OperatorDB)
    (h : new_withdrawal_direct sign db idx t1 a1 = (.ok s1, db1)) :
    (t2 ≠ t1 →
      (new_withdrawal_direct sign db1 idx t2 a2).1 = .error .alreadySpentWithdrawal) ∧
    (new_withdrawal_direct sign db1 idx t1 a3).1 = .ok s1 := by
  have hbound : assocGet db1.withdrawalSigs idx = some (t1, s1) := by
    unfold new_withdrawal_direct at h
    cases hget : assocGet db.withdrawalSigs idx with
    | some p =>
      obtain ⟨t0, s0⟩ := p
      rw [hget] at h
      by_cases ht : t0 = t1
      · subst ht
        simp at h
        rw [← h.2, hget, h.1]
      · simp only [if_neg ht, Prod.mk.injEq] at h
        exact absurd h.1 (by simp)
    | none =>
      rw [hget] at h
      simp only [Prod.mk.injEq, Except.ok.injEq] at h
      rw [← h.2, ← h.1]
      simp [assocGet]
  constructor
  · intro hne
    unfold new_withdrawal_direct
    rw [hbound]
    have hf : (t1 = t2) = False := eq_false (fun h' => hne h'.symm)
    simp [hf]
  · unfold new_withdrawal_direct
    rw [hbound]
    simp

/-- Witness for C5 at a concrete input: index 0 first bound to txid
`external 1`, then requested with `external 2` (rejected) and with
`external 1` again (same signature). -/
theorem new_withdrawal_direct_binding_witness :
    ((TxidM.external 2) ≠ (TxidM.external 1) →
      (new_withdrawal_direct (fun _ _ _ => 7) ⟨[(0, (.external 1, 7))]⟩ 0
        (.external 2) "b").1 = .error .alreadySpentWithdrawal) ∧
    (new_withdrawal_direct (fun _ _ _ => 7) ⟨[(0, (.external 1, 7))]⟩ 0
      (.external 1) "c").1 = .ok 7 :=
  new_withdrawal_direct_binding (fun _ _ _ => 7) ⟨[]⟩ 0 (.external 1) (.external 2)
    "a" "b" "c" 7 ⟨[(0, (.external 1, 7))]⟩ (by decide)

/-- Claim C3: the MuSig2 nonce set for a deposit outpoint is generated at
most once — a second sequential `new_deposit` call for the same outpoint
(with the deposit check passing) performs no store write and returns
exactly the public nonces persisted by the first call, identical to the
first call's return value, whatever the fresh random stream of the second
call would have produced. -/
theorem new_deposit_nonce_idempotent (rng rng2 : Nat → NoncePair) (db : VerifierDB)
    (dep : OutPointM) (ra ra2 : RecoveryAddr) (ea ea2 : EvmAddr) :
    ∃ pubs : List PubNonce,
      (new_deposit true rng db dep ra ea).1 = .ok pubs ∧
      (new_deposit true rng2 (new_deposit true rng db dep ra ea).2.1 dep ra2 ea2).1 =
        .ok pubs ∧
      get_pub_nonces (new_deposit true rng db dep ra ea).2.1 dep = some pubs ∧
      (new_deposit true rng2 (new_deposit true rng db dep ra ea).2.1 dep ra2 ea2).2.1 =
        (new_deposit true rng db dep ra ea).2.1 ∧
      ((new_deposit true rng2 (new_deposit true rng db dep ra ea).2.1 dep ra2 ea2).2.2).all
        (fun op => !op.isWrite) = true := by
  cases hget : get_pub_nonces db dep with
  | some pubs =>
    refine ⟨pubs, ?_, ?_, ?_, ?_, ?_⟩ <;>
      simp [new_deposit, hget, DBOp.isWrite]
  | none =>
    set db1 := (new_deposit true rng db dep ra ea).2.1 with hdb1
    have hget2 : get_pub_nonces db1 dep =
        some (((List.range num_required_sigs).map rng).map Prod.fst) := by
      rw [hdb1]
      simp only [new_deposit, hget]
      simp [get_pub_nonces, save_nonces, save_deposit_info, assocSet, assocGet]
    refine ⟨((List.range num_required_sigs).map rng).map Prod.fst, ?_, ?_, hget2, ?_, ?_⟩
    · simp only [new_deposit, hget]
      simp
    · simp only [new_deposit, hget2]
      simp
    · simp only [new_deposit, hget2]
      simp
    · simp only [new_deposit, hget2]
      simp [DBOp.isWrite]

/-- Claim C4 (counterexample): with matching counts and a kickoff UTXO
whose declared value 99999 is below the 100000-satoshi threshold, the
batch is rejected, but — because an earlier kickoff's schnorr signature
fails verification first — the returned error is
`SignatureVerificationFailed`, not `InvalidKickoffUtxo` as the claim
states. -/
theorem operator_kickoffs_generated_cex :
    ([0, 0] : List SigM).length = ([⟨⟨.external 1, [100000]⟩, 0⟩,
        ⟨⟨.external 2, [99999]⟩, 0⟩] : List PsbtOutPoint).length ∧
    (99999 : Nat) < 100000 ∧
    (operator_kickoffs_generated (fun _ _ => false) emptyVerifierDB ⟨.external 0, 0⟩
        [⟨⟨.external 1, [100000]⟩, 0⟩, ⟨⟨.external 2, [99999]⟩, 0⟩] [0, 0] []).1 =
      .error .signatureVerificationFailed ∧
    (operator_kickoffs_generated (fun _ _ => false) emptyVerifierDB ⟨.external 0, 0⟩
        [⟨⟨.external 1, [100000]⟩, 0⟩, ⟨⟨.external 2, [99999]⟩, 0⟩] [0, 0] []).1 ≠
      .error .invalidKickoffUtxo := by
  refine ⟨rfl, by norm_num, ?_, ?_⟩ <;> decide

lemma kickoffChecks_err_of_below (verify : SigM → KickoffMsg → Bool)
    (dep : OutPointM) :
    ∀ l : List (PsbtOutPoint × SigM),
      (∃ p ∈ l, ∃ v, p.1.tx.outputs[p.1.vout]? = some v ∧ v < 100000) →
      ∃ e, kickoffChecks verify dep l = .error e := by
  intro l
  induction l with
  | nil => rintro ⟨p, hp, _⟩; cases hp
  | cons hd tl ih =>
    rintro ⟨p, hp, v, hv, hlt⟩
    obtain ⟨ku, sig⟩ := hd
    cases hout : ku.tx.outputs[ku.vout]? with
    | none => exact ⟨.panicUnwrap, by simp [kickoffChecks, hout]⟩
    | some value =>
      by_cases hval : value < 100000
      · exact ⟨.invalidKickoffUtxo, by simp [kickoffChecks, hout, hval]⟩
      · by_cases hver : verify sig ⟨dep.txid, dep.vout, ku.tx.txid, ku.vout⟩ = true
        · have hrec : kickoffChecks verify dep ((ku, sig) :: tl) =
              kickoffChecks verify dep tl := by
            simp [kickoffChecks, hout, hval, hver]
          rw [hrec]
          apply ih
          rcases List.mem_cons.mp hp with heq | hmem
          · exfalso
            subst heq
            simp only at hv
            rw [hout] at hv
            injection hv with hveq
            omega
          · exact ⟨p, hmem, v, hv, hlt⟩
        · exact ⟨.signatureVerificationFailed, by simp [kickoffChecks, hout, hval, hver]⟩

lemma kickoffChecks_invalid_of_below (verify : SigM → KickoffMsg → Bool)
    (dep : OutPointM) :
    ∀ l : List (PsbtOutPoint × SigM),
      (∀ p ∈ l, ∃ v, p.1.tx.outputs[p.1.vout]? = some v) →
      (∀ p ∈ l, verify p.2 ⟨dep.txid, dep.vout, p.1.tx.txid, p.1.vout⟩ = true) →
      (∃ p ∈ l, ∃ v, p.1.tx.outputs[p.1.vout]? = some v ∧ v < 100000) →
      kickoffChecks verify dep l = .error .invalidKickoffUtxo := by
  intro l
  induction l with
  | nil => rintro _ _ ⟨p, hp, _⟩; cases hp
  | cons hd tl ih =>
    rintro hsome hver ⟨p, hp, v, hv, hlt⟩
    obtain ⟨ku, sig⟩ := hd
    obtain ⟨v0, hv0⟩ := hsome (ku, sig) (List.mem_cons_self ..)
    simp only at hv0
    by_cases hval : v0 < 100000
    · simp [kickoffChecks, hv0, hval]
    · have hv1 := hver (ku, sig) (List.mem_cons_self ..)
      simp only at hv1
      have hrec : kickoffChecks verify dep ((ku, sig) :: tl) =
          kickoffChecks verify dep tl := by
        simp [kickoffChecks, hv0, hval, hv1]
      rw [hrec]
      refine ih (fun q hq => hsome q (List.mem_cons_of_mem _ hq))
        (fun q hq => hver q (List.mem_cons_of_mem _ hq)) ⟨p, ?_, v, hv, hlt⟩
      rcases List.mem_cons.mp hp with heq | hmem
      · exfalso
        subst heq
        simp only at hv
        rw [hv0] at hv
        injection hv with hveq
        omega
      · exact hmem

/-- Claim C4 (amended): `operator_kickoffs_generated` rejects a
signature/UTXO count mismatch with `InvalidKickoffUtxo`; when some kickoff
UTXO's declared output value is below the 100000-satoshi threshold the
whole batch is rejected with an error — which is `InvalidKickoffUtxo`
provided no kickoff fails its schnorr verification (and each declared
`vout` is in range) — and in every rejection nothing is persisted: the
store is unchanged and no persistence operation is issued. -/
theorem operator_kickoffs_generated_rejection
    (verify : SigM → KickoffMsg → Bool) (db : VerifierDB) (dep : OutPointM)
    (kus : List PsbtOutPoint) (sigs : List SigM) (aggs : List AggNonce) :
    (sigs.length ≠ kus.length →
      operator_kickoffs_generated verify db dep kus sigs aggs =
        (.error .invalidKickoffUtxo, db, [])) ∧
    ((∃ p ∈ kus.zip sigs, ∃ v, p.1.tx.outputs[p.1.vout]? = some v ∧ v < 100000) →
      sigs.length = kus.length →
      ∃ e, operator_kickoffs_generated verify db dep kus sigs aggs =
        (.error e, db, [])) ∧
    ((∀ p ∈ kus.zip sigs, ∃ v, p.1.tx.outputs[p.1.vout]? = some v) →
      (∀ p ∈ kus.zip sigs, verify p.2 ⟨dep.txid, dep.vout, p.1.tx.txid, p.1.vout⟩ = true) →
      (∃ p ∈ kus.zip sigs, ∃ v, p.1.tx.outputs[p.1.vout]? = some v ∧ v < 100000) →
      sigs.length = kus.length →
      operator_kickoffs_generated verify db dep kus sigs aggs =
        (.error .invalidKickoffUtxo, db, [])) := by
  refine ⟨fun hne => ?_, fun hbad hlen => ?_, fun hsome hver hbad hlen => ?_⟩
  · simp [operator_kickoffs_generated, hne]
  · obtain ⟨e, he⟩ := kickoffChecks_err_of_below verify dep (kus.zip sigs) hbad
    refine ⟨e, ?_⟩
    simp [operator_kickoffs_generated, hlen, he]
  · have he := kickoffChecks_invalid_of_below verify dep (kus.zip sigs) hsome hver hbad
    simp [operator_kickoffs_generated, hlen, he]

/-- Witness for C4 (amended) at concrete inputs: a count mismatch is
rejected with `InvalidKickoffUtxo` and nothing is persisted; a batch whose
single kickoff is below the threshold (with its signature verifying) is
rejected with `InvalidKickoffUtxo` and nothing is persisted. -/
theorem operator_kickoffs_generated_rejection_witness :
    operator_kickoffs_generated (fun _ _ => true) emptyVerifierDB ⟨.external 0, 0⟩
      [] [0] [] = (.error .invalidKickoffUtxo, emptyVerifierDB, []) ∧
    operator_kickoffs_generated (fun _ _ => true) emptyVerifierDB ⟨.external 0, 0⟩
      [⟨⟨.external 1, [99999]⟩, 0⟩] [0] [] =
        (.error .invalidKickoffUtxo, emptyVerifierDB, []) :=
  ⟨(operator_kickoffs_generated_rejection (fun _ _ => true) emptyVerifierDB
      ⟨.external 0, 0⟩ [] [0] []).1 (by decide),
   (operator_kickoffs_generated_rejection (fun _ _ => true) emptyVerifierDB
      ⟨.external 0, 0⟩ [⟨⟨.external 1, [99999]⟩, 0⟩] [0] []).2.2
    (by
      intro p hp
      simp only [List.zip_cons_cons, List.zip_nil_right, List.mem_singleton] at hp
      subst hp
      exact ⟨99999, rfl⟩)
    (by
      intro p hp
      rfl)
    ⟨(⟨⟨.external 1, [99999]⟩, 0⟩, 0), by decide, 99999, rfl, by norm_num⟩
    (by decide)⟩

/-- Claim C9 (counterexample): a successful `operator_kickoffs_generated`
call performs two persistence writes (aggregated nonces, then kickoff
outpoints and amounts) with no begin/commit around them, so its trace does
not satisfy the single-transactional-boundary property the claim asserts
for every multi-write transition. -/
theorem operator_kickoffs_txn_boundary_cex :
    (operator_kickoffs_generated (fun _ _ => true) emptyVerifierDB ⟨.external 0, 0⟩
        [⟨⟨.external 1, [100000]⟩, 0⟩] [0] []).2.2.countP (fun op => op.isWrite) = 2 ∧
    allWritesInSingleTxn
      (operator_kickoffs_generated (fun _ _ => true) emptyVerifierDB ⟨.external 0, 0⟩
        [⟨⟨.external 1, [100000]⟩, 0⟩] [0] []).2.2 = false := by
  constructor <;> decide

/-- Claim C9 (amended): `new_deposit` executes its writes (deposit info
plus nonce sets) inside a single begin/commit transactional boundary,
while `operator_kickoffs_generated` issues its writes with no begin/commit
at all: its trace is either empty (rejection) or exactly the two bare
writes, never transactional. -/
theorem verifier_transactional_boundaries
    (check : Bool) (rng : Nat → NoncePair) (db db' : VerifierDB) (dep dep' : OutPointM)
    (ra : RecoveryAddr) (ea : EvmAddr)
    (verify : SigM → KickoffMsg → Bool) (kus : List PsbtOutPoint) (sigs : List SigM)
    (aggs : List AggNonce) :
    allWritesInSingleTxn (new_deposit check rng db dep ra ea).2.2 = true ∧
    ((operator_kickoffs_generated verify db' dep' kus sigs aggs).2.2 = [] ∨
      ((operator_kickoffs_generated verify db' dep' kus sigs aggs).2.2 =
          [.saveAggNonces, .saveKickoffOutpoints] ∧
        allWritesInSingleTxn [DBOp.saveAggNonces, DBOp.saveKickoffOutpoints] = false)) := by
  constructor
  · cases check with
    | false => simp [new_deposit, allWritesInSingleTxn, writesInTxnGo]
    | true =>
      cases hget : get_pub_nonces db dep with
      | some pubs =>
        simp only [new_deposit, hget]
        simp [allWritesInSingleTxn, writesInTxnGo, DBOp.isWrite]
      | none =>
        simp only [new_deposit, hget]
        simp [allWritesInSingleTxn, writesInTxnGo, DBOp.isWrite]
  · by_cases hlen : sigs.length ≠ kus.length
    · left
      simp [operator_kickoffs_generated, hlen]
    · cases hchecks : kickoffChecks verify dep' (kus.zip sigs) with
      | error e =>
        left
        simp [operator_kickoffs_generated, hlen, hchecks]
      | ok u =>
        right
        refine ⟨?_, by decide⟩
        simp [operator_kickoffs_generated, hlen, hchecks]

lemma tapDepth_eq (n i : Nat) :
    tapDepth n i = (ilog2 (n - 1) + 1) -
      (if n - (2 ^ (ilog2 (n - 1) + 1) - n) ≤ i then 1 else 0) := rfl

lemma leafDepthList_split (n : Nat) (h2 : 2 ≤ n) :
    leafDepthList n =
      List.replicate (n - (2 ^ (ilog2 (n - 1) + 1) - n)) (ilog2 (n - 1) + 1) ++
      List.replicate (2 ^ (ilog2 (n - 1) + 1) - n) (ilog2 (n - 1)) := by
  obtain ⟨hlo, hhi⟩ := ilog2_spec (n - 1) (by omega)
  set m := ilog2 (n - 1) + 1 with hm
  set k := 2 ^ m - n with hk
  have hman : 2 ^ m = 2 * 2 ^ (ilog2 (n - 1)) := by
    rw [hm, pow_succ]
    ring
  have hkn : k ≤ n := by
    rw [hk, hman]
    omega
  have hrange : List.range n = List.range (n - k) ++ (List.range k).map (fun x => (n - k) + x) := by
    conv_lhs => rw [show n = (n - k) + k by omega]
    exact List.range_add _ _
  unfold leafDepthList
  rw [hrange, List.map_append]
  congr 1
  · rw [List.eq_replicate_iff]
    refine ⟨by simp, ?_⟩
    intro b hb
    obtain ⟨i, hi, hbi⟩ := List.mem_map.mp hb
    rw [List.mem_range] at hi
    rw [← hbi, tapDepth_eq, ← hm, ← hk]
    rw [if_neg (by omega)]
    omega
  · rw [List.eq_replicate_iff]
    refine ⟨by simp, ?_⟩
    intro b hb
    obtain ⟨j, hj, hbj⟩ := List.mem_map.mp hb
    obtain ⟨i, hi, hij⟩ := List.mem_map.mp hj
    rw [← hbj, ← hij, tapDepth_eq, ← hm, ← hk]
    rw [if_pos (by omega)]
    omega

/-- Claim C1 (counterexample): for `n = 3` leaves (`m = 2`, `k = 1`) the
code assigns the depth list `[2, 2, 1]` — the LAST `k` leaves sit at depth
`m − 1` — while the claim's positional words ("the first `k` leaves … at
depth `m−1`") demand `[1, 2, 2]`; the two assignments differ. -/
theorem create_taproot_address_depths_cex :
    leafDepthList 3 = [2, 2, 1] ∧ specLeafDepths 3 = [1, 2, 2] ∧
    leafDepthList 3 ≠ specLeafDepths 3 := by
  refine ⟨?_, ?_, ?_⟩ <;> decide

/-- Claim C1 (amended): for `n ≥ 2` script leaves, `create_taproot_address`
assigns every leaf depth `m = ceil(log2 n)` (pinned by
`2^(m−1) < n ≤ 2^m`), except the LAST `k = 2^m − n` leaves of the list,
which get depth `m − 1`; consequently the multiset of leaf depths equals
`{m−1 repeated k times, m repeated n−k times}`. -/
theorem create_taproot_address_depths (n m k : Nat) (h2 : 2 ≤ n)
    (hm : m = ilog2 (n - 1) + 1) (hk : k = 2 ^ m - n) :
    (2 ^ (m - 1) < n ∧ n ≤ 2 ^ m) ∧
    leafDepthList n = List.replicate (n - k) m ++ List.replicate k (m - 1) ∧
    (leafDepthList n : Multiset Nat) =
      Multiset.replicate k (m - 1) + Multiset.replicate (n - k) m := by
  obtain ⟨hlo, hhi⟩ := ilog2_spec (n - 1) (by omega)
  have hm1 : m - 1 = ilog2 (n - 1) := by omega
  have hsplit := leafDepthList_split n h2
  rw [← hm, ← hk, ← hm1] at hsplit
  refine ⟨⟨?_, ?_⟩, hsplit, ?_⟩
  · rw [hm1]
    omega
  · rw [hm]
    omega
  · rw [hsplit, ← Multiset.coe_add]
    rw [Multiset.coe_replicate, Multiset.coe_replicate]
    exact add_comm _ _

/-- Witness for C1 (amended) at `n = 3`, `m = 2`, `k = 1`. -/
theorem create_taproot_address_depths_witness :
    (2 ^ (2 - 1) < 3 ∧ 3 ≤ 2 ^ 2) ∧
    leafDepthList 3 = List.replicate (3 - 1) 2 ++ List.replicate 1 (2 - 1) ∧
    (leafDepthList 3 : Multiset Nat) =
      Multiset.replicate 1 (2 - 1) + Multiset.replicate (3 - 1) 2 :=
  create_taproot_address_depths 3 2 1 (by decide) (by decide) (by decide)

lemma tapDepth_two_zero : tapDepth 2 0 = 1 := rfl

lemma tapDepth_two_one : tapDepth 2 1 = 1 := rfl

lemma TBinsert_two_first (s : Script) :
    TBinsert [] (.leaf s) 1 = .ok [none, some (.leaf s)] := rfl

lemma TBinsert_two_second (s t : Script) :
    TBinsert [none, some (.leaf s)] (.leaf t) 1 =
      .ok [some (.node (.leaf s) (.leaf t))] := rfl

lemma buildTaprootBuilder_two (s t : Script) :
    buildTaprootBuilder [s, t] = .ok [some (.node (.leaf s) (.leaf t))] := by
  have h : List.range 2 = [0, 1] := rfl
  simp only [buildTaprootBuilder, List.length_cons, List.length_nil, h, List.foldl_cons,
    List.foldl_nil, List.getD_cons_zero, List.getD_cons_succ, Except.bind]
  norm_num
  simp only [tapDepth_two_zero, tapDepth_two_one, TBinsert_two_first, TBinsert_two_second]

lemma createTaprootAddress_two (c : SecpCtx) (s t : Script) :
    createTaprootAddress c [s, t] =
      .ok (⟨INTERNAL_KEY, some (.node (.leaf s) (.leaf t)), .regtest⟩,
           ⟨INTERNAL_KEY, some (.node (.leaf s) (.leaf t))⟩) := by
  simp only [createTaprootAddress, List.length_cons, List.length_nil, buildTaprootBuilder_two]
  rfl

lemma create_connector_tree_node_address_ok (secp : SecpCtx) (pk : XOnlyPk)
    (h : Hash256) :
    create_connector_tree_node_address secp pk h =
      .ok (⟨INTERNAL_KEY,
            some (.node (.leaf (.timelock pk CONNECTOR_TREE_OPERATOR_TAKES_AFTER))
                        (.leaf (.preimage h))), .regtest⟩,
           ⟨INTERNAL_KEY,
            some (.node (.leaf (.timelock pk CONNECTOR_TREE_OPERATOR_TAKES_AFTER))
                        (.leaf (.preimage h)))⟩) :=
  createTaprootAddress_two secp _ _

lemma connLevelGo_ok (secp : SecpCtx) (pk : XOnlyPk) (dust fee depth i : Nat)
    (hashes : List (List Hash256)) (lvl : List Hash256)
    (hlvl : hashes[i + 1]? = some lvl) :
    ∀ (prev : List OutPointM) (j : Nat), 2 * (j + prev.length) ≤ lvl.length →
    ∃ cur, connLevelGo secp pk dust fee depth i hashes prev j = some cur ∧
      cur.length = 2 * prev.length ∧
      ∀ o ∈ cur, ∃ pt pv a1 a2, o.txid = TxidM.ofConnTx pt pv
          [(calculate_amount (depth - i - 1) dust fee, a1),
           (calculate_amount (depth - i - 1) dust fee, a2)] := by
  intro prev
  induction prev with
  | nil =>
    intro j hj
    exact ⟨[], rfl, rfl, by simp⟩
  | cons utxo rest ih =>
    intro j hj
    have hb1 : 2 * j < lvl.length := by simp at hj ⊢; omega
    have hb2 : 2 * j + 1 < lvl.length := by simp at hj ⊢; omega
    obtain ⟨tail, htail, hlen, hmem⟩ := ih (j + 1) (by simp at hj ⊢; omega)
    refine ⟨⟨(create_connector_tree_tx dust fee utxo (depth - i - 1)
        (⟨INTERNAL_KEY, some (.node (.leaf (.timelock pk CONNECTOR_TREE_OPERATOR_TAKES_AFTER))
          (.leaf (.preimage lvl[2 * j]))), .regtest⟩)
        (⟨INTERNAL_KEY, some (.node (.leaf (.timelock pk CONNECTOR_TREE_OPERATOR_TAKES_AFTER))
          (.leaf (.preimage lvl[2 * j + 1]))), .regtest⟩)).txid, 0⟩ ::
      ⟨(create_connector_tree_tx dust fee utxo (depth - i - 1)
        (⟨INTERNAL_KEY, some (.node (.leaf (.timelock pk CONNECTOR_TREE_OPERATOR_TAKES_AFTER))
          (.leaf (.preimage lvl[2 * j]))), .regtest⟩)
        (⟨INTERNAL_KEY, some (.node (.leaf (.timelock pk CONNECTOR_TREE_OPERATOR_TAKES_AFTER))
          (.leaf (.preimage lvl[2 * j + 1]))), .regtest⟩)).txid, 1⟩ :: tail, ?_, ?_, ?_⟩
    · simp only [connLevelGo, hlvl, Option.bind_eq_bind, Option.some_bind,
        List.getElem?_eq_getElem hb1, List.getElem?_eq_getElem hb2,
        create_connector_tree_node_address_ok, Except.toOption, htail]
    · simp [hlen]
      ring
    · intro o ho
      rcases List.mem_cons.mp ho with h1 | ho
    
      · subst h1
        exact ⟨utxo.txid, utxo.vout, _, _, rfl⟩
      · rcases List.mem_cons.mp ho with h2 | ho
        · subst h2
          exact ⟨utxo.txid, utxo.vout, _, _, rfl⟩
        · exact hmem o ho

lemma connLevelGo_some_inv (secp : SecpCtx) (pk : XOnlyPk) (dust fee depth i : Nat)
    (hashes : List (List Hash256)) :
    ∀ (prev : List OutPointM) (j : Nat) (cur : List OutPointM),
      connLevelGo secp pk dust fee depth i hashes prev j = some cur →
      cur.length = 2 * prev.length ∧
      (prev ≠ [] → ∃ lvl, hashes[i + 1]? = some lvl ∧ 2 * (j + prev.length) ≤ lvl.length) := by
  intro prev
  induction prev with
  | nil =>
    intro j cur hcur
    simp only [connLevelGo, Option.some.injEq] at hcur
    subst hcur
    exact ⟨rfl, fun h => absurd rfl h⟩
  | cons utxo rest ih =>
    intro j cur hcur
    simp only [connLevelGo, Option.bind_eq_bind, Option.bind_eq_some] at hcur
    obtain ⟨lvl, hlvl, h1, hh1, h2, hh2, a1, ha1, a2, ha2, tail, htail, hcur⟩ := hcur
    obtain ⟨hlen, _⟩ := ih (j + 1) tail htail
    obtain ⟨hb2, -⟩ := List.getElem?_eq_some_iff.mp hh2
    injection hcur with hcur
    subst hcur
    constructor
    · simp [hlen]
      omega
    · intro _
      refine ⟨lvl, hlvl, ?_⟩
      rcases List.eq_nil_or_concat rest with hrest | hne
      · subst hrest
        simp
        omega
      · obtain ⟨_, hbound⟩ := ih (j + 1) tail htail
        have hrne : rest ≠ [] := by
          obtain ⟨l', a', rfl⟩ := hne
          simp
        obtain ⟨lvl', hlvl', hb'⟩ := hbound hrne
        rw [hlvl] at hlvl'
        injection hlvl' with he
        subst he
        simp at hb' ⊢
        omega

lemma connTreeLoop_ok (secp : SecpCtx) (pk : XOnlyPk) (dust fee depth : Nat)
    (hashes : List (List Hash256))
    (hs : ∀ l, l ≤ depth → ∃ lvl, hashes[l]? = some lvl ∧ 2 ^ l ≤ lvl.length) :
    ∀ (fuel i : Nat) (prev : List OutPointM), depth - i = fuel → i ≤ depth →
      prev.length = 2 ^ i →
    ∃ rest, connTreeLoop secp pk dust fee depth hashes i prev = some rest ∧
      rest.length = depth - i ∧
      ∀ q, q < rest.length →
        (rest.getD q []).length = 2 ^ (i + 1 + q) ∧
        ∀ o ∈ rest.getD q [], ∃ pt pv a1 a2, o.txid = TxidM.ofConnTx pt pv
          [(calculate_amount (depth - (i + q) - 1) dust fee, a1),
           (calculate_amount (depth - (i + q) - 1) dust fee, a2)] := by
  intro fuel
  induction fuel with
  | zero =>
    intro i prev hfuel hle hlen
    have hge : depth ≤ i := by omega
    refine ⟨[], ?_, by simp [hfuel], by simp⟩
    unfold connTreeLoop
    rw [dif_pos hge]
  | succ fuel ih =>
    intro i prev hfuel hle hlen
    have hlt : i < depth := by omega
    obtain ⟨lvl, hlvl, hlvllen⟩ := hs (i + 1) (by omega)
    obtain ⟨cur, hcur, hcurlen, hcurmem⟩ :=
      connLevelGo_ok secp pk dust fee depth i hashes lvl hlvl prev 0
        (by rw [hlen]; rw [pow_succ] at hlvllen; omega)
    obtain ⟨rest', hrest', hrestlen, hrestq⟩ := ih (i + 1) cur (by omega) (by omega)
      (by rw [hcurlen, hlen, pow_succ]; ring)
    refine ⟨cur :: rest', ?_, ?_, ?_⟩
    · unfold connTreeLoop
      rw [dif_neg (by omega)]
      simp only [Option.bind_eq_bind, hcur, Option.some_bind, hrest', Option.some_bind]
    · simp [hrestlen]
      omega
    · intro q hq
      cases q with
      | zero =>
        refine ⟨?_, ?_⟩
        · simp only [List.getD_cons_zero, Nat.add_zero]
          rw [hcurlen, hlen, pow_succ]
          ring
        · intro o ho
          simp only [List.getD_cons_zero] at ho
          simpa using hcurmem o ho
      | succ q' =>
        simp only [List.getD_cons_succ]
        simp only [List.length_cons] at hq
        obtain ⟨hq1, hq2⟩ := hrestq q' (by omega)
        have hexp : i + 1 + 1 + q' = i + 1 + (q' + 1) := by omega
        have hamt : depth - (i + 1 + q') - 1 = depth - (i + (q' + 1)) - 1 := by omega
        constructor
        · rw [hq1, hexp]
        · intro o ho
          obtain ⟨pt, pv, a1, a2, hx⟩ := hq2 o ho
          exact ⟨pt, pv, a1, a2, by rw [hx, hamt]⟩

lemma connTreeLoop_some_inv (secp : SecpCtx) (pk : XOnlyPk) (dust fee depth : Nat)
    (hashes : List (List Hash256)) :
    ∀ (fuel i : Nat) (prev : List OutPointM) (rest : List (List OutPointM)),
      depth - i = fuel →
      connTreeLoop secp pk dust fee depth hashes i prev = some rest →
      prev ≠ [] →
      ∀ l, i < l → l ≤ depth →
        ∃ lvl, hashes[l]? = some lvl ∧ 2 ^ (l - i) * prev.length ≤ lvl.length := by
  intro fuel
  induction fuel with
  | zero => intro i prev rest hfuel hrest hne l hl1 hl2; omega
  | succ fuel ih =>
    intro i prev rest hfuel hrest hne l hl1 hl2
    unfold connTreeLoop at hrest
    rw [dif_neg (by omega)] at hrest
    simp only [Option.bind_eq_bind, Option.bind_eq_some] at hrest
    obtain ⟨cur, hcur, rest', hrest', -⟩ := hrest
    obtain ⟨hcurlen, hbound⟩ :=
      connLevelGo_some_inv secp pk dust fee depth i hashes prev 0 cur hcur
    obtain ⟨lvl, hlvl, hlb⟩ := hbound hne
    rcases Nat.lt_or_ge (i + 1) l with hlt' | hge
    · have hcne : cur ≠ [] := by
        intro hc
        rw [hc] at hcurlen
        simp only [List.length_nil] at hcurlen
        have hp0 : prev.length = 0 := by omega
        exact hne (List.length_eq_zero.mp hp0)
      obtain ⟨lvl', hlvl', hb'⟩ := ih (i + 1) cur rest' (by omega) hrest' hcne l hlt' hl2
      refine ⟨lvl', hlvl', ?_⟩
      have harith : 2 ^ (l - i) * prev.length = 2 ^ (l - (i + 1)) * cur.length := by
        rw [hcurlen, show l - i = (l - (i + 1)) + 1 by omega, pow_succ]
        ring
      rw [harith]
      exact hb'
    · have hl : l = i + 1 := by omega
      subst hl
      refine ⟨lvl, hlvl, ?_⟩
      rw [Nat.add_sub_cancel_left, pow_one]
      omega

lemma totalLB : ∀ (hs : List (List Hash256)) (f : Nat → Nat) (D : Nat),
    (∀ l, l < D → ∃ lvl, hs[l]? = some lvl ∧ f l ≤ lvl.length) →
    ((List.range D).map f).sum ≤ totalHashes hs := by
  intro hs
  induction hs with
  | nil =>
    intro f D hf
    cases D with
    | zero => simp [totalHashes]
    | succ D =>
      obtain ⟨lvl, hlvl, -⟩ := hf 0 (by omega)
      simp at hlvl
  | cons hd tl ih =>
    intro f D hf
    cases D with
    | zero => simp [totalHashes]
    | succ D =>
      rw [List.range_succ_eq_map, List.map_cons, List.map_map, List.sum_cons]
      obtain ⟨lvl, hlvl, hflvl⟩ := hf 0 (by omega)
      rw [List.getElem?_cons_zero] at hlvl
      injection hlvl with hlvl
      subst hlvl
      have hih := ih (f ∘ Nat.succ) D (fun l hl => by
        obtain ⟨lvl', hlvl', hf'⟩ := hf (l + 1) (by omega)
        rw [List.getElem?_cons_succ] at hlvl'
        exact ⟨lvl', hlvl', hf'⟩)
      unfold totalHashes at hih ⊢
      simp only [List.map_cons, List.sum_cons]
      omega

lemma range_pow_sum : ∀ d : Nat, ((List.range d).map (fun i => 2 ^ i)).sum = 2 ^ d - 1 := by
  intro d
  induction d with
  | zero => simp
  | succ d ih =>
    rw [List.range_succ, List.map_append, List.sum_append, ih]
    simp only [List.map_cons, List.map_nil, List.sum_cons, List.sum_nil]
    rw [pow_succ]
    have := Nat.one_le_two_pow (n := d)
    omega

lemma range_gate_sum (d : Nat) :
    ((List.range (d + 1)).map (fun l => if l = 0 then 1 else 2 ^ l)).sum =
      2 ^ (d + 1) - 1 := by
  induction d with
  | zero =>
    have h1 : List.range 1 = [0] := rfl
    rw [h1]
    norm_num
  | succ d ih =>
    rw [List.range_succ, List.map_append, List.sum_append, ih]
    simp only [List.map_cons, List.map_nil, List.sum_cons, List.sum_nil]
    rw [if_neg (by omega), pow_succ 2 (d + 1)]
    have := Nat.one_le_two_pow (n := d + 1)
    omega

lemma calc_amount_step (e dust fee : Nat) :
    2 * calculate_amount e dust fee + fee = calculate_amount (e + 1) dust fee := by
  unfold calculate_amount
  have h1 : 1 ≤ 2 ^ e := Nat.one_le_two_pow
  rw [pow_succ]
  have h2 : (2 ^ e - 1) * fee = 2 ^ e * fee - 1 * fee := Nat.sub_mul ..
  have h3 : (2 ^ e * 2 - 1) * fee = 2 ^ e * 2 * fee - 1 * fee := Nat.sub_mul ..
  rw [h2, h3]
  have h4 : 2 ^ e * 2 * dust = 2 * (2 ^ e * dust) := by ring
  have h5 : 2 ^ e * 2 * fee = 2 * (2 ^ e * fee) := by ring
  rw [h4, h5]
  have h6 : fee ≤ 2 ^ e * fee := by
    calc fee = 1 * fee := by ring
    _ ≤ 2 ^ e * fee := Nat.mul_le_mul_right fee h1
  omega

lemma calc_amount_zero (dust fee : Nat) : calculate_amount 0 dust fee = dust := by
  unfold calculate_amount
  norm_num

/-- Claim C7: for every depth `d` and every hash list providing at least
`2^i` hashes at each level `i ≤ d`, `create_connector_binary_tree`
returns exactly `d + 1` levels where level `i` holds exactly `2^i` output
points; for depth 0 it returns the single-node tree `[[root]]`; and a hash
list with fewer than `2^(d+1) − 1` total entries makes the call panic
(modelled as `none`) — a precondition violation, not a defined result. -/
theorem create_connector_binary_tree_shape (secp : SecpCtx) (per : Nat)
    (pk : XOnlyPk) (root : OutPointM) (depth dust fee : Nat)
    (hashes : List (List Hash256)) :
    ((∀ l, l ≤ depth → ∃ lvl, hashes[l]? = some lvl ∧ 2 ^ l ≤ lvl.length) →
      ∃ levels,
        create_connector_binary_tree secp per pk root depth dust fee hashes =
          some levels ∧
        levels.length = depth + 1 ∧
        (∀ q, q ≤ depth → (levels.getD q []).length = 2 ^ q) ∧
        (depth = 0 → levels = [[root]])) ∧
    (totalHashes hashes < 2 ^ (depth + 1) - 1 →
      create_connector_binary_tree secp per pk root depth dust fee hashes = none) := by
  constructor
  · intro hs
    obtain ⟨lvl0, hlvl0, hlvl0len⟩ := hs 0 (by omega)
    have h0 : (0 : Nat) < lvl0.length := by simpa using hlvl0len
    obtain ⟨rest, hrest, hrestlen, hrestq⟩ :=
      connTreeLoop_ok secp pk dust fee depth hashes hs (depth - 0) 0 [root] rfl
        (by omega) (by simp)
    refine ⟨[root] :: rest, ?_, ?_, ?_, ?_⟩
    · simp only [create_connector_binary_tree, hlvl0, Option.bind_eq_bind,
        Option.some_bind, List.getElem?_eq_getElem h0,
        create_connector_tree_node_address_ok, Except.toOption, hrest]
    · simp [hrestlen]
    · intro q hq
      cases q with
      | zero => simp
      | succ q' =>
        simp only [List.getD_cons_succ]
        obtain ⟨hlen, -⟩ := hrestq q' (by omega)
        rw [hlen]
        congr 1
        omega
    · intro hd0
      subst hd0
      have : rest = [] := List.length_eq_zero.mp (by omega)
      rw [this]
  · intro htot
    cases hres : create_connector_binary_tree secp per pk root depth dust fee hashes with
    | none => rfl
    | some levels =>
      exfalso
      simp only [create_connector_binary_tree, Option.bind_eq_bind,
        Option.bind_eq_some] at hres
      obtain ⟨lvl0, hlvl0, h00, hh00, addr, haddr, rest, hrest, -⟩ := hres
      obtain ⟨h0len, -⟩ := List.getElem?_eq_some_iff.mp hh00
      have hbig := connTreeLoop_some_inv secp pk dust fee depth hashes
        (depth - 0) 0 [root] rest rfl hrest (by simp)
      have hall : ∀ l, l < depth + 1 →
          ∃ lvl, hashes[l]? = some lvl ∧ (if l = 0 then 1 else 2 ^ l) ≤ lvl.length := by
        intro l hl
        cases Nat.eq_zero_or_pos l with
        | inl hl0 =>
          subst hl0
          exact ⟨lvl0, hlvl0, by simpa using h0len⟩
        | inr hlpos =>
          obtain ⟨lvl, hlvl, hb⟩ := hbig l (by omega) (by omega)
          refine ⟨lvl, hlvl, ?_⟩
          rw [if_neg (by omega)]
          simpa using hb
      have hle := totalLB hashes (fun l => if l = 0 then 1 else 2 ^ l) (depth + 1) hall
      rw [range_gate_sum] at hle
      omega

/-- Witness for C7 at depth 1 with hashes `[[5], [6, 7]]` (sufficient) and
at depth 0 with the empty hash list (0 < 2^1 − 1 entries, panic). -/
theorem create_connector_binary_tree_shape_witness :
    (∃ levels,
        create_connector_binary_tree ⟨0⟩ 0 "pk" ⟨.external 0, 0⟩ 1 546 300
          [[5], [6, 7]] = some levels ∧
        levels.length = 1 + 1 ∧
        (∀ q, q ≤ 1 → (levels.getD q []).length = 2 ^ q) ∧
        (1 = 0 → levels = [[⟨.external 0, 0⟩]])) ∧
    create_connector_binary_tree ⟨0⟩ 0 "pk" ⟨.external 0, 0⟩ 2 546 300 [[5]] = none :=
  ⟨(create_connector_binary_tree_shape ⟨0⟩ 0 "pk" ⟨.external 0, 0⟩ 1 546 300
      [[5], [6, 7]]).1
    (by
      intro l hl
      match l, hl with
      | 0, _ => exact ⟨[5], rfl, by norm_num⟩
      | 1, _ => exact ⟨[6, 7], rfl, by norm_num⟩),
   (create_connector_binary_tree_shape ⟨0⟩ 0 "pk" ⟨.external 0, 0⟩ 2 546 300
      [[5]]).2 (by norm_num [totalHashes])⟩

/-- Claim C2: for a connector tree of depth `d` rooted at value
`V = calculate_amount d = dust·2^d + fee·(2^d − 1)`, every node
transaction built at level `i` splits its input into exactly two child
outputs each of value `calculate_amount(d−i−1, dust, fee)` (readable from
the collision-free txids of the level-`i+1` output points), the sum of a
node's two outputs plus the fee equals that node's own value
`calculate_amount(d−i)`, all `2^d` leaf values sum to `dust·2^d`, and the
`2^d − 1` intermediate-transaction fees sum to `fee·(2^d − 1)`. -/
theorem connector_tree_value_conservation (secp : SecpCtx) (per : Nat)
    (pk : XOnlyPk) (root : OutPointM) (depth dust fee : Nat)
    (hashes : List (List Hash256))
    (hs : ∀ l, l ≤ depth → ∃ lvl, hashes[l]? = some lvl ∧ 2 ^ l ≤ lvl.length) :
    calculate_amount depth dust fee = dust * 2 ^ depth + fee * (2 ^ depth - 1) ∧
    (∀ i, i < depth →
      2 * calculate_amount (depth - i - 1) dust fee + fee =
        calculate_amount (depth - i) dust fee) ∧
    ∃ levels,
      create_connector_binary_tree secp per pk root depth dust fee hashes =
        some levels ∧
      levels.length = depth + 1 ∧
      (∀ i, i < depth → ∀ o ∈ levels.getD (i + 1) [],
        ∃ pt pv a1 a2, o.txid = TxidM.ofConnTx pt pv
          [(calculate_amount (depth - i - 1) dust fee, a1),
           (calculate_amount (depth - i - 1) dust fee, a2)]) ∧
      (levels.getD depth []).length * calculate_amount 0 dust fee =
        2 ^ depth * dust ∧
      ((List.range depth).map (fun i => (levels.getD i []).length)).sum * fee =
        (2 ^ depth - 1) * fee := by
  refine ⟨?_, ?_, ?_⟩
  · unfold calculate_amount
    ring_nf
  · intro i hi
    have he : depth - i = (depth - i - 1) + 1 := by omega
    rw [he]
    exact calc_amount_step (depth - i - 1) dust fee
  · obtain ⟨lvl0, hlvl0, hlvl0len⟩ := hs 0 (by omega)
    have h0 : (0 : Nat) < lvl0.length := by simpa using hlvl0len
    obtain ⟨rest, hrest, hrestlen, hrestq⟩ :=
      connTreeLoop_ok secp pk dust fee depth hashes hs (depth - 0) 0 [root] rfl
        (by omega) (by simp)
    have hshape : ∀ q, q ≤ depth → (([root] :: rest).getD q []).length = 2 ^ q := by
      intro q hq
      cases q with
      | zero => simp
      | succ q' =>
        simp only [List.getD_cons_succ]
        obtain ⟨hlen, -⟩ := hrestq q' (by omega)
        rw [hlen]
        congr 1
        omega
    refine ⟨[root] :: rest, ?_, by simp [hrestlen], ?_, ?_, ?_⟩
    · simp only [create_connector_binary_tree, hlvl0, Option.bind_eq_bind,
        Option.some_bind, List.getElem?_eq_getElem h0,
        create_connector_tree_node_address_ok, Except.toOption, hrest]
    · intro i hi o ho
      simp only [List.getD_cons_succ] at ho
      obtain ⟨-, hmem⟩ := hrestq i (by omega)
      obtain ⟨pt, pv, a1, a2, hx⟩ := hmem o ho
      refine ⟨pt, pv, a1, a2, ?_⟩
      rw [hx]
      congr 3
      · congr 1
        omega
      · congr 2
        omega
    · rw [hshape depth (by omega), calc_amount_zero]
    · have hmapeq : (List.range depth).map (fun i => ((([root] :: rest)).getD i []).length) =
          (List.range depth).map (fun i => 2 ^ i) := by
        apply List.map_congr_left
        intro i hi
        rw [List.mem_range] at hi
        exact hshape i (by omega)
      rw [hmapeq, range_pow_sum]

/-- Witness for C2 at depth 1, `dust = 546`, `fee = 300`, hashes
`[[5], [6, 7]]`. -/
theorem connector_tree_value_conservation_witness :
    calculate_amount 1 546 300 = 546 * 2 ^ 1 + 300 * (2 ^ 1 - 1) ∧
    (∀ i, i < 1 →
      2 * calculate_amount (1 - i - 1) 546 300 + 300 =
        calculate_amount (1 - i) 546 300) ∧
    ∃ levels,
      create_connector_binary_tree ⟨0⟩ 0 "pk" ⟨.external 0, 0⟩ 1 546 300
        [[5], [6, 7]] = some levels ∧
      levels.length = 1 + 1 ∧
      (∀ i, i < 1 → ∀ o ∈ levels.getD (i + 1) [],
        ∃ pt pv a1 a2, o.txid = TxidM.ofConnTx pt pv
          [(calculate_amount (1 - i - 1) 546 300, a1),
           (calculate_amount (1 - i - 1) 546 300, a2)]) ∧
      (levels.getD 1 []).length * calculate_amount 0 546 300 = 2 ^ 1 * 546 ∧
      ((List.range 1).map (fun i => (levels.getD i []).length)).sum * 300 =
        (2 ^ 1 - 1) * 300 :=
  connector_tree_value_conservation ⟨0⟩ 0 "pk" ⟨.external 0, 0⟩ 1 546 300
    [[5], [6, 7]]
    (by
      intro l hl
      match l, hl with
      | 0, _ => exact ⟨[5], rfl, by norm_num⟩
      | 1, _ => exact ⟨[6, 7], rfl, by norm_num⟩)

/-- Number of trailing zero bits of a positive number (0 for 0). -/
def tzeros (u : Nat) : Nat :=
  if u % 2 = 1 ∨ u = 0 then 0 else tzeros (u / 2) + 1
decreasing_by
  simp_wf
  omega

lemma tzeros_odd (u : Nat) (h : u % 2 = 1) : tzeros u = 0 := by
  unfold tzeros
  rw [if_pos (Or.inl h)]

lemma tzeros_even (u : Nat) (h1 : u % 2 = 0) (h2 : u ≠ 0) :
    tzeros u = tzeros (u / 2) + 1 := by
  conv_lhs => unfold tzeros
  rw [if_neg (by omega)]

lemma testBit_tzeros : ∀ u : Nat, 1 ≤ u → u.testBit (tzeros u) = true := by
  intro u
  induction u using Nat.strong_induction_on with
  | _ u ih =>
    intro hu
    by_cases h : u % 2 = 1
    · rw [tzeros_odd u h, Nat.testBit_zero]
      simp [h]
    · have h0 : u % 2 = 0 := by omega
      rw [tzeros_even u h0 (by omega), Nat.testBit_succ]
      exact ih (u / 2) (by omega) (by omega)

lemma testBit_lt_tzeros : ∀ u : Nat, 1 ≤ u → ∀ i : Nat, i < tzeros u →
    u.testBit i = false := by
  intro u
  induction u using Nat.strong_induction_on with
  | _ u ih =>
    intro hu i hi
    by_cases h : u % 2 = 1
    · rw [tzeros_odd u h] at hi
      omega
    · have h0 : u % 2 = 0 := by omega
      rw [tzeros_even u h0 (by omega)] at hi
      cases i with
      | zero =>
        rw [Nat.testBit_zero]
        simp [h0]
      | succ j =>
        rw [Nat.testBit_succ]
        exact ih (u / 2) (by omega) (by omega) j (by omega)

lemma testBit_pred_lt_tzeros : ∀ u : Nat, 1 ≤ u → ∀ i : Nat, i < tzeros u →
    (u - 1).testBit i = true := by
  intro u
  induction u using Nat.strong_induction_on with
  | _ u ih =>
    intro hu i hi
    by_cases h : u % 2 = 1
    · rw [tzeros_odd u h] at hi
      omega
    · have h0 : u % 2 = 0 := by omega
      rw [tzeros_even u h0 (by omega)] at hi
      cases i with
      | zero =>
        rw [Nat.testBit_zero]
        have : (u - 1) % 2 = 1 := by omega
        simp [this]
      | succ j =>
        rw [Nat.testBit_succ]
        have hdiv : (u - 1) / 2 = u / 2 - 1 := by omega
        rw [hdiv]
        exact ih (u / 2) (by omega) (by omega) j (by omega)

lemma testBit_pred_tzeros : ∀ u : Nat, 1 ≤ u →
    (u - 1).testBit (tzeros u) = false := by
  intro u
  induction u using Nat.strong_induction_on with
  | _ u ih =>
    intro hu
    by_cases h : u % 2 = 1
    · rw [tzeros_odd u h, Nat.testBit_zero]
      have : (u - 1) % 2 = 0 := by omega
      simp [this]
    · have h0 : u % 2 = 0 := by omega
      rw [tzeros_even u h0 (by omega), Nat.testBit_succ]
      have hdiv : (u - 1) / 2 = u / 2 - 1 := by omega
      rw [hdiv]
      exact ih (u / 2) (by omega) (by omega)

lemma testBit_pred_gt_tzeros : ∀ u : Nat, 1 ≤ u → ∀ i : Nat, tzeros u < i →
    (u - 1).testBit i = u.testBit i := by
  intro u
  induction u using Nat.strong_induction_on with
  | _ u ih =>
    intro hu i hi
    by_cases h : u % 2 = 1
    · rw [tzeros_odd u h] at hi
      cases i with
      | zero => omega
      | succ j =>
        rw [Nat.testBit_succ, Nat.testBit_succ]
        have hdiv : (u - 1) / 2 = u / 2 := by omega
        rw [hdiv]
    · have h0 : u % 2 = 0 := by omega
      rw [tzeros_even u h0 (by omega)] at hi
      cases i with
      | zero => omega
      | succ j =>
        rw [Nat.testBit_succ, Nat.testBit_succ]
        have hdiv : (u - 1) / 2 = u / 2 - 1 := by omega
        rw [hdiv]
        exact ih (u / 2) (by omega) (by omega) j (by omega)

lemma tzeros_le (u M : Nat) (hu : 1 ≤ u) (hM : u ≤ 2 ^ M) : tzeros u ≤ M := by
  have h1 := testBit_tzeros u hu
  have h2 := Nat.testBit_implies_ge h1
  by_contra hgt
  have : 2 ^ M < 2 ^ tzeros u := Nat.pow_lt_pow_right (by omega) (by omega)
  omega

/-- The canonical builder-stack shape after accumulated Kraft weight `w`
(out of `2^m`): entry at stack depth `d` says whether a completed subtree
sits there, i.e. bit `m − d` of `w`; the stack ends at the lowest set bit
of `w`. -/
def shapeOf (m w : Nat) : List Bool :=
  if w = 0 then []
  else (List.range (m + 1 - tzeros w)).map (fun d => w.testBit (m - d))

lemma shapeOf_zero (m : Nat) : shapeOf m 0 = [] := by
  unfold shapeOf
  rw [if_pos rfl]

lemma shapeOf_pos (m w : Nat) (h : w ≠ 0) :
    shapeOf m w = (List.range (m + 1 - tzeros w)).map (fun d => w.testBit (m - d)) := by
  unfold shapeOf
  rw [if_neg h]

lemma shapeOf_length (m w : Nat) (h : w ≠ 0) :
    (shapeOf m w).length = m + 1 - tzeros w := by
  rw [shapeOf_pos m w h]
  simp

lemma shapeOf_even (m w : Nat) (hm : 1 ≤ m) (hw2 : w % 2 = 0) :
    shapeOf m w = shapeOf (m - 1) (w / 2) := by
  by_cases h0 : w = 0
  · subst h0
    norm_num [shapeOf_zero]
  · have hw2ne : w / 2 ≠ 0 := by omega
    rw [shapeOf_pos m w h0, shapeOf_pos (m - 1) (w / 2) hw2ne]
    have htz : tzeros w = tzeros (w / 2) + 1 := tzeros_even w hw2 h0
    have hlen : m + 1 - tzeros w = (m - 1) + 1 - tzeros (w / 2) := by omega
    rw [hlen]
    apply List.map_congr_left
    intro d hd
    rw [List.mem_range] at hd
    have hdm : m - d = (m - 1 - d) + 1 := by omega
    rw [hdm, Nat.testBit_succ]

lemma tzeros_two_pow : ∀ m : Nat, tzeros (2 ^ m) = m := by
  intro m
  induction m with
  | zero => exact tzeros_odd 1 (by norm_num)
  | succ m ih =>
    have h2 : 2 ^ (m + 1) % 2 = 0 := by
      rw [pow_succ]
      omega
    rw [tzeros_even (2 ^ (m + 1)) h2 (by positivity)]
    have : 2 ^ (m + 1) / 2 = 2 ^ m := by
      rw [pow_succ]
      omega
    rw [this, ih]

lemma shapeOf_two_pow (m : Nat) : shapeOf m (2 ^ m) = [true] := by
  rw [shapeOf_pos m (2 ^ m) (by positivity), tzeros_two_pow]
  have h1 : m + 1 - m = 1 := by omega
  rw [h1, show List.range 1 = [0] from rfl]
  simp [Nat.testBit_two_pow_self]

lemma getElem?_map_range (L i : Nat) (f : Nat → Bool) :
    ((List.range L).map f)[i]? = if i < L then some (f i) else none := by
  by_cases h : i < L
  · rw [if_pos h, List.getElem?_map, List.getElem?_range h]
    rfl
  · rw [if_neg h, List.getElem?_eq_none]
    simp
    omega

lemma shapeOf_odd_decomp (M v : Nat) (hodd : v % 2 = 1) (hv : v < 2 ^ M) :
    shapeOf M v =
      (List.range (M - tzeros (v + 1))).map (fun d => v.testBit (M - d)) ++
        false :: List.replicate (tzeros (v + 1)) true := by
  set t := tzeros (v + 1) with ht
  have hu : 1 ≤ v + 1 := by omega
  have htM : t ≤ M := tzeros_le (v + 1) M hu (by omega)
  rw [shapeOf_pos M v (by omega), tzeros_odd v hodd, Nat.sub_zero]
  apply List.ext_getElem?
  intro i
  rw [getElem?_map_range, List.getElem?_append]
  simp only [List.length_map, List.length_range]
  by_cases hiA : i < M - t
  · rw [if_pos (by omega), if_pos hiA, getElem?_map_range, if_pos hiA]
  · by_cases hiB : i < M + 1
    · rw [if_pos hiB, if_neg hiA]
      rcases Nat.eq_or_lt_of_le (Nat.le_of_not_lt hiA) with heq | hlt
      · have h0 : i - (M - t) = 0 := by omega
        rw [h0, List.getElem?_cons_zero]
        have hMi : M - i = t := by omega
        rw [hMi]
        have hpred := testBit_pred_tzeros (v + 1) hu
        rw [Nat.add_sub_cancel] at hpred
        rw [ht, hpred]
      · have hsucc : i - (M - t) = (i - (M - t) - 1) + 1 := by omega
        rw [hsucc, List.getElem?_cons_succ, List.getElem?_replicate]
        rw [if_pos (by omega)]
        have hpred := testBit_pred_lt_tzeros (v + 1) hu (M - i) (by omega)
        rw [Nat.add_sub_cancel] at hpred
        rw [hpred]
    · rw [if_neg hiB, if_neg hiA]
      have hsucc : i - (M - t) = (i - (M - t) - 1) + 1 := by omega
      rw [hsucc, List.getElem?_cons_succ, List.getElem?_replicate]
      rw [if_neg (by omega)]

lemma shapeOf_succ_odd (M v : Nat) (hodd : v % 2 = 1) (hv : v + 1 ≤ 2 ^ M) :
    shapeOf M (v + 1) =
      (List.range (M - tzeros (v + 1))).map (fun d => v.testBit (M - d)) ++ [true] := by
  set t := tzeros (v + 1) with ht
  have hu : 1 ≤ v + 1 := by omega
  have htM : t ≤ M := tzeros_le (v + 1) M hu hv
  rw [shapeOf_pos M (v + 1) (by omega), ← ht]
  apply List.ext_getElem?
  intro i
  rw [getElem?_map_range, List.getElem?_append]
  simp only [List.length_map, List.length_range]
  by_cases hiA : i < M - t
  · rw [if_pos (by omega), if_pos hiA, getElem?_map_range, if_pos hiA]
    have hstep := testBit_pred_gt_tzeros (v + 1) hu (M - i) (by omega)
    rw [Nat.add_sub_cancel] at hstep
    rw [hstep]
  · by_cases hiB : i < M + 1 - t
    · rw [if_pos hiB, if_neg hiA]
      have h0 : i - (M - t) = 0 := by omega
      rw [h0, List.getElem?_cons_zero]
      have hMi : M - i = t := by omega
      rw [hMi, ht]
      rw [testBit_tzeros (v + 1) hu]
    · rw [if_neg hiB, if_neg hiA]
      have hge : 1 ≤ i - (M - t) := by omega
      have hsucc : i - (M - t) = (i - (M - t) - 1) + 1 := by omega
      rw [hsucc, List.getElem?_cons_succ]
      rw [List.getElem?_eq_none]
      simp

lemma shapeOf_succ_even (M w : Nat) (heven : w % 2 = 0) (hw : w < 2 ^ M) :
    shapeOf M (w + 1) =
      shapeOf M w ++ List.replicate (M - (shapeOf M w).length) false ++ [true] := by
  have hodd1 : (w + 1) % 2 = 1 := by omega
  have htz1 : tzeros (w + 1) = 0 := tzeros_odd (w + 1) hodd1
  have hpredstep : ∀ j, 1 ≤ j → (w + 1).testBit j = w.testBit j := by
    intro j hj
    have := testBit_pred_gt_tzeros (w + 1) (by omega) j (by omega)
    rw [Nat.add_sub_cancel] at this
    exact this.symm
  rw [shapeOf_pos M (w + 1) (by omega), htz1, Nat.sub_zero]
  by_cases h0 : w = 0
  · subst h0
    rw [shapeOf_zero]
    apply List.ext_getElem?
    intro i
    rw [getElem?_map_range]
    simp only [List.nil_append, List.length_nil, Nat.sub_zero]
    rw [List.getElem?_append]
    simp only [List.length_replicate]
    by_cases hiA : i < M
    · rw [if_pos (by omega), if_pos hiA, List.getElem?_replicate, if_pos hiA]
      rw [Nat.testBit_to_div_mod]
      have hdiv : (0 + 1) / 2 ^ (M - i) = 0 := by
        apply Nat.div_eq_of_lt
        have h1 : 1 ≤ M - i := by omega
        calc (0 + 1 : Nat) < 2 ^ 1 := by norm_num
        _ ≤ 2 ^ (M - i) := Nat.pow_le_pow_right (by norm_num) h1
      rw [hdiv]
      simp
    · by_cases hiB : i < M + 1
      · rw [if_pos hiB, if_neg hiA]
        have hMi : M - i = 0 := by omega
        have hidx : i - M = 0 := by omega
        rw [hMi, hidx, List.getElem?_cons_zero, Nat.testBit_zero]
        simp
      · rw [if_neg hiB, if_neg hiA]
        have hidx : i - M = (i - M - 1) + 1 := by omega
        rw [hidx, List.getElem?_cons_succ]
        rw [List.getElem?_eq_none]
        simp
  · have hwpos : 1 ≤ w := by omega
    have htzw : 1 ≤ tzeros w := by
      by_contra hz
      have h0t : tzeros w = 0 := by omega
      have hbt := testBit_tzeros w hwpos
      rw [h0t, Nat.testBit_zero] at hbt
      simp at hbt
      omega
    have htzwM : tzeros w ≤ M := tzeros_le w M hwpos (by omega)
    have hlenw : (shapeOf M w).length = M + 1 - tzeros w := shapeOf_length M w h0
    apply List.ext_getElem?
    intro i
    rw [getElem?_map_range, List.getElem?_append, List.getElem?_append]
    simp only [List.length_append, List.length_replicate, hlenw]
    by_cases hiB : i < M + 1 - tzeros w
    · rw [if_pos (by omega), if_pos (by omega), if_pos hiB]
      rw [shapeOf_pos M w h0, getElem?_map_range, if_pos hiB]
      have hbit : 1 ≤ M - i := by omega
      rw [hpredstep (M - i) hbit]
    · by_cases hiA : i < M
      · rw [if_pos (by omega), if_pos (by omega), if_neg hiB, List.getElem?_replicate]
        rw [if_pos (by omega)]
        have hlow : M - i < tzeros w := by omega
        have hbit : 1 ≤ M - i := by omega
        rw [hpredstep (M - i) hbit]
        rw [testBit_lt_tzeros w hwpos (M - i) hlow]
      · by_cases hiC : i < M + 1
        · rw [if_pos hiC, if_neg (by omega)]
          have hMi : M - i = 0 := by omega
          have hidx : i - (M + 1 - tzeros w + (M - (M + 1 - tzeros w))) = 0 := by omega
          rw [hMi, hidx, List.getElem?_cons_zero, Nat.testBit_zero]
          simp [hodd1]
        · rw [if_neg hiC, if_neg (by omega)]
          have hidx : i - (M + 1 - tzeros w + (M - (M + 1 - tzeros w))) =
              (i - (M + 1 - tzeros w + (M - (M + 1 - tzeros w))) - 1) + 1 := by omega
          rw [hidx, List.getElem?_cons_succ]
          rw [List.getElem?_eq_none]
          simp

lemma replicate_set_last {α : Type} (k : Nat) (a x : α) :
    (List.replicate (k + 1) a).set k x = List.replicate k a ++ [x] := by
  induction k with
  | zero => rfl
  | succ k ih =>
    rw [List.replicate_succ, List.set_cons_succ, ih]
    rw [List.replicate_succ, List.cons_append]

lemma set_pad_last {α : Type} (b : List α) (k : Nat) (a x : α) :
    (b ++ List.replicate (k + 1) a).set (b.length + k) x =
      b ++ (List.replicate k a ++ [x]) := by
  rw [List.set_append, if_neg (by omega), Nat.add_sub_cancel_left]
  rw [replicate_set_last]

lemma insertLoop_skip (b : List (Option TapNode)) (node : TapNode) (d : Nat)
    (h : b.length ≠ d + 1) : insertLoop b node d = .ok (b, node, d) := by
  unfold insertLoop
  rw [if_neg h]

lemma TBinsert_pad (b : List (Option TapNode)) (node : TapNode) (d : Nat)
    (hlen : b.length < d + 1) (hd : d ≤ 128) :
    TBinsert b node d =
      .ok (b ++ List.replicate (d - b.length) none ++ [some node]) := by
  unfold TBinsert
  rw [if_neg (by unfold TAPROOT_CONTROL_MAX_NODE_COUNT; omega)]
  rw [if_neg (by omega)]
  rw [insertLoop_skip b node d (by omega)]
  simp only
  rw [if_pos hlen]
  have hk : d + 1 - b.length = (d - b.length) + 1 := by omega
  rw [hk]
  have hset := set_pad_last b (d - b.length) (none : Option TapNode) (some node)
  have hd' : b.length + (d - b.length) = d := by omega
  rw [hd'] at hset
  rw [hset, List.append_assoc]

lemma insertLoop_carry : ∀ (ys : List TapNode) (p : List (Option TapNode))
    (node : TapNode) (d : Nat),
    d = p.length + ys.length →
    (∀ j y, (p ++ none :: ys.map some)[j]? = some (some y) → y.height + j ≤ 128) →
    node.height + d ≤ 128 →
    ∃ node', insertLoop (p ++ none :: ys.map some) node d = .ok (p, node', p.length) ∧
      node'.height + p.length ≤ 128 := by
  intro ys
  induction ys using List.reverseRecOn with
  | nil =>
    intro p node d hd hH hnode
    have hdp : d = p.length := by simpa using hd
    subst hdp
    refine ⟨node, ?_, by omega⟩
    unfold insertLoop
    rw [if_pos (by simp)]
    rw [show (List.map some ([] : List TapNode)) = ([] : List (Option TapNode)) from rfl]
    rw [show p ++ (none : Option TapNode) :: [] = p ++ [none] from rfl]
    rw [List.getLast?_concat]
    simp only
    rw [List.dropLast_concat]
  | append_singleton ys y ih =>
    intro p node d hd hH hnode
    have hb : p ++ none :: (ys ++ [y]).map some =
        (p ++ none :: ys.map some) ++ [some y] := by
      simp
    rw [hb] at hH ⊢
    obtain ⟨e, rfl⟩ : ∃ e, d = e + 1 := ⟨p.length + ys.length, by simp at hd; omega⟩
    have he : e = p.length + ys.length := by simp at hd; omega
    have hylen : (p ++ none :: ys.map some).length = e + 1 := by simp; omega
    have hy : y.height + (e + 1) ≤ 128 := by
      apply hH (e + 1) y
      rw [List.getElem?_append_right (by omega)]
      rw [hylen, Nat.sub_self, List.getElem?_cons_zero]
    unfold insertLoop
    rw [if_pos (by simp; omega)]
    rw [List.getLast?_concat]
    simp only
    have hcomb : combine y node = .ok (.node y node) := by
      unfold combine
      rw [if_neg (by unfold TAPROOT_CONTROL_MAX_NODE_COUNT; omega)]
    rw [hcomb]
    simp only
    rw [List.dropLast_concat]
    have hnodeh : (TapNode.node y node).height + e ≤ 128 := by
      simp only [TapNode.height]
      omega
    obtain ⟨node', hrec, hh⟩ := ih p (.node y node) e he
      (fun j y' hj => by
        have hjlen : j < (p ++ none :: ys.map some).length := by
          by_contra hge
          rw [List.getElem?_eq_none (by omega)] at hj
          cases hj
        apply hH j y'
        rw [List.getElem?_append_left hjlen]
        exact hj)
      hnodeh
    exact ⟨node', hrec, hh⟩

lemma TBinsert_carry (ys : List TapNode) (p : List (Option TapNode))
    (node : TapNode) (d : Nat)
    (hd : d = p.length + ys.length) (hd128 : d ≤ 128)
    (hH : ∀ j y, (p ++ none :: ys.map some)[j]? = some (some y) → y.height + j ≤ 128)
    (hnode : node.height + d ≤ 128) :
    ∃ node', TBinsert (p ++ none :: ys.map some) node d = .ok (p ++ [some node']) ∧
      node'.height + p.length ≤ 128 := by
  obtain ⟨node', hloop, hh⟩ := insertLoop_carry ys p node d hd hH hnode
  refine ⟨node', ?_, hh⟩
  unfold TBinsert
  rw [if_neg (by unfold TAPROOT_CONTROL_MAX_NODE_COUNT; omega)]
  rw [if_neg (by simp; omega)]
  rw [hloop]
  simp only
  rw [if_pos (by omega)]
  have hk : p.length + 1 - p.length = 0 + 1 := by omega
  rw [hk]
  rw [show List.replicate (0 + 1) (none : Option TapNode) = [none] from rfl]
  rw [List.set_append, if_neg (by omega), Nat.sub_self]
  rfl

/-- Height bound invariant on a builder stack: a completed subtree at
stack depth `j` has height at most `128 − j`, so that the carry loop's
`combine` calls can never overflow a leaf merkle branch. -/
def HOKb (b : List (Option TapNode)) : Prop :=
  ∀ j y, b[j]? = some (some y) → y.height + j ≤ 128

lemma map_isSome_split (b : List (Option TapNode)) (s1 s2 : List Bool)
    (h : b.map Option.isSome = s1 ++ s2) :
    ∃ b1 b2, b = b1 ++ b2 ∧ b1.map Option.isSome = s1 ∧ b2.map Option.isSome = s2 := by
  rcases List.map_eq_append_iff.mp h with ⟨b1, b2, rfl, h1, h2⟩
  exact ⟨b1, b2, rfl, h1, h2⟩

lemma map_isSome_false_cons (b : List (Option TapNode)) (s : List Bool)
    (h : b.map Option.isSome = false :: s) :
    ∃ b2, b = none :: b2 ∧ b2.map Option.isSome = s := by
  cases b with
  | nil => simp at h
  | cons o b2 =>
    simp only [List.map_cons, List.cons.injEq] at h
    obtain ⟨h1, h2⟩ := h
    cases o with
    | none => exact ⟨b2, rfl, h2⟩
    | some x => simp at h1

lemma map_isSome_rep_true (b : List (Option TapNode)) :
    ∀ t : Nat, b.map Option.isSome = List.replicate t true →
    ∃ ys : List TapNode, b = ys.map some ∧ ys.length = t := by
  induction b with
  | nil =>
    intro t h
    refine ⟨[], rfl, ?_⟩
    have := congrArg List.length h
    simpa using this
  | cons o b ih =>
    intro t h
    cases t with
    | zero => simp at h
    | succ t =>
      rw [List.replicate_succ] at h
      simp only [List.map_cons, List.cons.injEq] at h
      obtain ⟨h1, h2⟩ := h
      cases o with
      | none => simp at h1
      | some x =>
        obtain ⟨ys, rfl, hlen⟩ := ih t h2
        exact ⟨x :: ys, rfl, by simp [hlen]⟩

lemma INCTOP (M v : Nat) (b : List (Option TapNode)) (s : Script)
    (hshape : b.map Option.isSome = shapeOf M v)
    (hv : v < 2 ^ M) (hM : M ≤ 128) (hH : HOKb b) :
    ∃ b', TBinsert b (.leaf s) M = .ok b' ∧
      b'.map Option.isSome = shapeOf M (v + 1) ∧ HOKb b' := by
  by_cases hodd : v % 2 = 1
  · have hdec := shapeOf_odd_decomp M v hodd hv
    rw [hdec] at hshape
    obtain ⟨p, rest, rfl, hp, hrest⟩ := map_isSome_split _ _ _ hshape
    obtain ⟨rest2, hrest2eq, hrest2⟩ := map_isSome_false_cons rest _ hrest
    subst hrest2eq
    obtain ⟨ys, rfl, hyslen⟩ := map_isSome_rep_true rest2 _ hrest2
    have hplen : p.length = M - tzeros (v + 1) := by
      have := congrArg List.length hp
      simpa using this
    have htM : tzeros (v + 1) ≤ M := tzeros_le (v + 1) M (by omega) (by omega)
    have ht1 : 1 ≤ tzeros (v + 1) := by
      have he : (v + 1) % 2 = 0 := by omega
      rw [tzeros_even (v + 1) he (by omega)]
      omega
    have hdM : M = p.length + ys.length := by omega
    obtain ⟨node', hins, hh⟩ := TBinsert_carry ys p (.leaf s) M hdM hM
      (fun j y hj => hH j y hj) (by simp only [TapNode.height]; omega)
    refine ⟨p ++ [some node'], hins, ?_, ?_⟩
    · rw [List.map_append, hp]
      rw [shapeOf_succ_odd M v hodd (by omega)]
      rfl
    · intro j y hj
      rcases Nat.lt_or_ge j p.length with hjp | hjp
      · apply hH j y
        rw [List.getElem?_append_left hjp]
        rw [List.getElem?_append_left hjp] at hj
        exact hj
      · rw [List.getElem?_append_right hjp] at hj
        have hj0 : j - p.length = 0 := by
          by_contra hne
          rw [show j - p.length = (j - p.length - 1) + 1 by omega,
            List.getElem?_cons_succ] at hj
          simp at hj
        rw [hj0, List.getElem?_cons_zero] at hj
        injection hj with hj
        injection hj with hj
        subst hj
        omega
  · have hlenb : b.length ≤ M := by
      have hl := congrArg List.length hshape
      simp only [List.length_map] at hl
      by_cases h0 : v = 0
      · subst h0
        rw [shapeOf_zero] at hl
        rw [List.length_nil] at hl
        omega
      · have ht1 : 1 ≤ tzeros v := by
          rw [tzeros_even v (by omega) h0]
          omega
        rw [shapeOf_length M v h0] at hl
        omega
    have hpad := TBinsert_pad b (.leaf s) M (by omega) hM
    refine ⟨_, hpad, ?_, ?_⟩
    · rw [List.map_append, List.map_append, hshape, List.map_replicate]
      rw [shapeOf_succ_even M v (by omega) hv]
      have hblen : b.length = (shapeOf M v).length := by
        have := congrArg List.length hshape
        simpa using this
      rw [hblen]
      rfl
    · intro j y hj
      rw [List.append_assoc] at hj
      rcases Nat.lt_or_ge j b.length with hjb | hjb
      · apply hH j y
        rw [List.getElem?_append_left hjb] at hj
        exact hj
      · rw [List.getElem?_append_right hjb] at hj
        rcases Nat.lt_or_ge (j - b.length) (M - b.length) with hjm | hjm
        · rw [List.getElem?_append_left (by simpa using hjm),
            List.getElem?_replicate, if_pos hjm] at hj
          cases hj
        · rw [List.getElem?_append_right (by simpa using hjm)] at hj
          simp only [List.length_replicate] at hj
          have hj0 : j - b.length - (M - b.length) = 0 := by
            by_contra hne
            rw [show j - b.length - (M - b.length) =
              (j - b.length - (M - b.length) - 1) + 1 by omega,
              List.getElem?_cons_succ] at hj
            simp at hj
          rw [hj0, List.getElem?_cons_zero] at hj
          injection hj with hj
          injection hj with hj
          subst hj
          have hjM : j = M := by omega
          simp only [TapNode.height]
          omega

/-- Accumulated Kraft weight (in units of `2^(−m)`) after inserting the
first `j` leaves: the first `n − k` leaves sit at depth `m` (weight 1
each), the last `k` at depth `m − 1` (weight 2 each). -/
def wfold (n k j : Nat) : Nat :=
  if j ≤ n - k then j else (n - k) + 2 * (j - (n - k))

lemma buildFold (scripts : List Script) (n m k : Nat)
    (hn : n = scripts.length) (h2 : 2 ≤ n) (h64 : n ≤ 2 ^ 64)
    (hm : m = ilog2 (n - 1) + 1) (hk : k = 2 ^ m - n) :
    ∀ j, j ≤ n →
    ∃ b, (List.range j).foldl
        (fun (acc : Except TaprootBuilderError (List (Option TapNode))) i =>
          acc.bind (fun br =>
            TBinsert br (.leaf (scripts.getD i (.preimage 0))) (tapDepth n i)))
        (.ok []) = .ok b ∧
      b.map Option.isSome = shapeOf m (wfold n k j) ∧ HOKb b := by
  obtain ⟨hlo, hhi⟩ := ilog2_spec (n - 1) (by omega)
  have hm1 : 2 ^ m = 2 * 2 ^ (m - 1) := by
    rw [hm, pow_succ]
    have : ilog2 (n - 1) + 1 - 1 = ilog2 (n - 1) := by omega
    rw [this]
    ring
  have hmlo : 2 ^ (m - 1) = 2 ^ ilog2 (n - 1) := by
    congr 1
    omega
  have hnle : n ≤ 2 ^ m := by
    rw [hm]
    omega
  have hklt : k < n := by
    rw [hk]
    omega
  have hm128 : m ≤ 128 := by
    have hlt : 2 ^ ilog2 (n - 1) < 2 ^ 64 := by omega
    have := (Nat.pow_lt_pow_iff_right (a := 2) (by norm_num)).mp hlt
    omega
  have hpar : (n - k) % 2 = 0 := by
    rw [hk]
    omega
  have htd1 : ∀ i, i < n - k → tapDepth n i = m := by
    intro i hi
    rw [tapDepth_eq, ← hm, ← hk, if_neg (by omega)]
    omega
  have htd2 : ∀ i, n - k ≤ i → tapDepth n i = m - 1 := by
    intro i hi
    rw [tapDepth_eq, ← hm, ← hk, if_pos hi]
  intro j
  induction j with
  | zero =>
    intro hj
    refine ⟨[], rfl, ?_, ?_⟩
    · rw [show wfold n k 0 = 0 by unfold wfold; rw [if_pos (by omega)]]
      rw [shapeOf_zero]
      rfl
    · intro j y hj'
      simp at hj'
  | succ j ih =>
    intro hj
    obtain ⟨b, hb, hshape, hH⟩ := ih (by omega)
    rw [List.range_succ, List.foldl_append, hb, List.foldl_cons, List.foldl_nil]
    rcases Nat.lt_or_ge j (n - k) with hph | hph
    · rw [htd1 j hph]
      have hwj : wfold n k j = j := by
        unfold wfold
        rw [if_pos (by omega)]
      rw [hwj] at hshape
      obtain ⟨b', hins, hshape', hH'⟩ := INCTOP m j b
        (scripts.getD j (.preimage 0)) hshape (by omega) hm128 hH
      refine ⟨b', ?_, ?_, hH'⟩
      · simp only [Except.bind, hins]
      · rw [hshape']
        congr 1
        unfold wfold
        rw [if_pos (by omega)]
    · rw [htd2 j hph]
      have hwj : wfold n k j = (n - k) + 2 * (j - (n - k)) := by
        unfold wfold
        by_cases hje : j ≤ n - k
        · have : j = n - k := by omega
          rw [if_pos hje]
          omega
        · rw [if_neg hje]
      have hweven : wfold n k j % 2 = 0 := by
        rw [hwj]
        omega
      have hwbound : wfold n k j ≤ 2 ^ m - 2 := by
        rw [hwj, hk]
        omega
      rw [shapeOf_even m (wfold n k j) (by omega) hweven] at hshape
      obtain ⟨b', hins, hshape', hH'⟩ := INCTOP (m - 1) (wfold n k j / 2) b
        (scripts.getD j (.preimage 0)) hshape (by omega) (by omega) hH
      refine ⟨b', ?_, ?_, hH'⟩
      · simp only [Except.bind, hins]
      · rw [hshape']
        have hstep : wfold n k j / 2 + 1 = (wfold n k j + 2) / 2 := by omega
        have hnext : wfold n k (j + 1) = wfold n k j + 2 := by
          unfold wfold
          rw [if_neg (by omega)]
          by_cases hje : j ≤ n - k
          · have : j = n - k := by omega
            rw [if_pos hje]
            omega
          · rw [if_neg hje]
            omega
        rw [hstep, hnext]
        rw [← shapeOf_even m (wfold n k j + 2) (by omega) (by omega)]

lemma wfold_final (n m k : Nat) (_h2 : 2 ≤ n) (hnle : n ≤ 2 ^ m)
    (hk : k = 2 ^ m - n) (hklt : k ≤ n) : wfold n k n = 2 ^ m := by
  unfold wfold
  by_cases hje : n ≤ n - k
  · rw [if_pos hje]
    omega
  · rw [if_neg hje]
    omega

/-- Claim C10: for every non-empty script list (whose length fits a Rust
`usize`), the internal `TaprootBuilder` construction in
`create_taproot_address` cannot fail — every `add_leaf` at the assigned
depths and the final `finalize` with the fixed internal key succeed, so
the `unwrap` calls are unreachable and the function returns `ok`. -/
theorem create_taproot_address_no_panic (secp : SecpCtx) (scripts : List Script)
    (h1 : 1 ≤ scripts.length) (h64 : scripts.length ≤ 2 ^ 64) :
    ∃ r, createTaprootAddress secp scripts = .ok r := by
  rcases Nat.lt_or_ge scripts.length 2 with hn1 | hn2
  · have hlen1 : scripts.length = 1 := by omega
    obtain ⟨s, rfl⟩ := List.length_eq_one.mp hlen1
    exact ⟨_, rfl⟩
  · set n := scripts.length with hn
    set m := ilog2 (n - 1) + 1 with hm
    set k := 2 ^ m - n with hk
    obtain ⟨hlo, hhi⟩ := ilog2_spec (n - 1) (by omega)
    have hnle : n ≤ 2 ^ m := by
      rw [hm]
      omega
    have hm1 : 2 ^ m = 2 * 2 ^ (m - 1) := by
      rw [hm, pow_succ]
      have h' : ilog2 (n - 1) + 1 - 1 = ilog2 (n - 1) := by omega
      rw [h']
      ring
    have hmlo : 2 ^ (m - 1) = 2 ^ ilog2 (n - 1) := by
      congr 1
    have hklt : k ≤ n := by
      rw [hk]
      omega
    obtain ⟨b, hb, hshape, hH⟩ :=
      buildFold scripts n m k hn hn2 h64 hm hk n le_rfl
    rw [wfold_final n m k (by omega) hnle hk hklt] at hshape
    rw [shapeOf_two_pow] at hshape
    obtain ⟨root, rfl⟩ : ∃ y, b = [some y] := by
      cases b with
      | nil => simp at hshape
      | cons o tl =>
        cases tl with
        | nil =>
          cases o with
          | none => simp at hshape
          | some y => exact ⟨y, rfl⟩
        | cons o2 tl2 => simp at hshape
    refine ⟨(⟨INTERNAL_KEY, some root, .regtest⟩, ⟨INTERNAL_KEY, some root⟩), ?_⟩
    have hbuild : buildTaprootBuilder scripts = .ok [some root] := by
      unfold buildTaprootBuilder
      rw [if_pos (show 1 < scripts.length by omega)]
      exact hb
    unfold createTaprootAddress
    rw [if_neg (by omega)]
    rw [hbuild]
    rfl

/-- Witness for C10 at three concrete scripts. -/
theorem create_taproot_address_no_panic_witness :
    ∃ r, createTaprootAddress ⟨0⟩
      [.preimage 0, .preimage 1, .preimage 2] = .ok r :=
  create_taproot_address_no_panic ⟨0⟩ [.preimage 0, .preimage 1, .preimage 2]
    (by decide) (by decide)
